import Mathlib

/-!
# Verification of the pyzx circuit-extraction module (`extract.py`)

This file gives a shallow embedding, in Lean 4, of the parts of
`pyzx/extract.py` that the specification's claims are about, and proves or
refutes each claim.

Conventions used throughout:
* Python lists indexed by `0,...,n-1` and Python dictionaries with small
  natural-number keys are embedded either as Lean `List`s (read with
  `List.getD`, written with `List.set`) or as functions `Nat → _` updated
  with `Function.update`; in each case the surrounding hypotheses keep the
  accesses inside the range that the Python code actually touches.
* Phases (Python `Fraction`s) are embedded as rationals `ℚ`.
* Row coordinates are embedded as `ℚ` (the code stores half-integer rows,
  e.g. `leftrow - 0.5`).
* A Python function that can raise is embedded with an explicit error
  result (`Except`, `Option`, or a dedicated outcome inductive); distinct
  exception kinds that matter to a claim get distinct constructors.
* Unbounded `while True:` loops are embedded with an explicit fuel
  argument plus a dedicated `fuelOut`-style result; the development proves
  that with the fuel supplied by the embedding the `fuelOut` result is
  unreachable, which is exactly a termination proof for the Python loop.
-/

namespace Pyzx

/-!
## Swap Resolver: `permutation_as_swaps` (extract.py lines 605-621)

```python
def permutation_as_swaps(perm):
    swaps = []
    l = [perm[i] for i in range(len(perm))]
    pinv = {v:k for k,v in perm.items()}
    linv = [pinv[i] for i in range(len(pinv))]
    for i in range(len(perm)):
        if l[i] == i: continue
        t1 = l[i]
        t2 = linv[i]
        swaps.append((i,t2))
        l[t2] = t1
        linv[t1] = t2
    return swaps
```

The input dictionary is embedded as a list `perm` with `perm[i]` the image
of `i`; the working lists `l` and `linv` are embedded as functions
`Nat → Nat` updated with `Function.update` (the Python code never reads
the stale entries `l[i]`, `linv[i]` after step `i`, and the proofs below
only use the entries the code actually reads).
-/

/-- Index of the first occurrence of `v` in `l`.  For a list `perm` that is
a bijection on `{0,...,n-1}` this is the value `pinv[v]` of the Python
dictionary `pinv = {v:k for k,v in perm.items()}` (occurrences are unique,
so first occurrence agrees with the dictionary comprehension). -/
def invIdx (v : Nat) : List Nat → Nat
  | [] => 0
  | a :: l => if a = v then 0 else invIdx v l + 1

/-- The loop of `permutation_as_swaps`: for each `i` of the index list, if
`l[i] == i` skip, else emit the swap `(i, linv[i])` and update
`l[linv[i]] := l[i]` and `linv[l[i]] := linv[i]`. -/
def swapLoop : List Nat → (Nat → Nat) → (Nat → Nat) → List (Nat × Nat)
  | [], _, _ => []
  | i :: is, l, linv =>
    if l i = i then swapLoop is l linv
    else (i, linv i) ::
      swapLoop is (Function.update l (linv i) (l i)) (Function.update linv (l i) (linv i))

/-- Embedding of `permutation_as_swaps` (extract.py lines 605-621). -/
def permutation_as_swaps (perm : List Nat) : List (Nat × Nat) :=
  swapLoop (List.range perm.length) (fun i => perm.getD i 0) (fun v => invIdx v perm)

/-- The transposition exchanging the values `a` and `b`. -/
def swapFn (a b x : Nat) : Nat := if x = a then b else if x = b then a else x

/-- Apply a list of transpositions, in order, to every entry of a list:
this is what "applying the returned swaps to the arrangement
`[0,...,n-1]`" means (each swap exchanges the two named values wherever
they occur). -/
def applySwapsTo (sw : List (Nat × Nat)) (xs : List Nat) : List Nat :=
  sw.foldl (fun ys s => ys.map (swapFn s.1 s.2)) xs

/-- Apply a list of transpositions, in order, to a single value. -/
def applyTrans (sw : List (Nat × Nat)) (x : Nat) : Nat :=
  sw.foldl (fun y s => swapFn s.1 s.2 y) x

/-- `j` is the largest element of its cycle under `σ`: no iterate of `σ`
starting from `j` exceeds `j`.  For a permutation of `{0,...,n-1}` the
whole orbit of `j` is visited within `n` iterations, so the bounded
quantifier is enough (proved in `isCycleMaxB_iff_forall` below). -/
def isCycleMaxB (σ : Nat → Nat) (n j : Nat) : Bool :=
  decide (∀ k < n, σ^[k] j ≤ j)

/-- The number of cycles of a permutation of `{0,...,n-1}` (given as the
list of images), counting fixed points as cycles of length 1: every cycle
is counted exactly once, at its largest element. -/
def cycleCount (perm : List Nat) : Nat :=
  (List.range perm.length).countP (isCycleMaxB (fun i => perm.getD i 0) perm.length)

/-- Cycle-at-its-maximum count for a function, over `{0,...,n-1}`. -/
def cmc (σ : Nat → Nat) (n : Nat) : Nat :=
  (List.range n).countP (isCycleMaxB σ n)

theorem applyTrans_nil (x : Nat) : applyTrans [] x = x := rfl

theorem applyTrans_cons (s : Nat × Nat) (sw : List (Nat × Nat)) (x : Nat) :
    applyTrans (s :: sw) x = applyTrans sw (swapFn s.1 s.2 x) := rfl

theorem applySwapsTo_eq_map (sw : List (Nat × Nat)) (xs : List Nat) :
    applySwapsTo sw xs = xs.map (applyTrans sw) := by
  induction sw generalizing xs with
  | nil =>
    show xs = xs.map (applyTrans [])
    rw [show applyTrans [] = id from rfl, List.map_id]
  | cons s sw ih =>
    show applySwapsTo sw (xs.map (swapFn s.1 s.2)) = _
    rw [ih, List.map_map]
    rfl

theorem invIdx_lt_length {v : Nat} {l : List Nat} (h : v ∈ l) : invIdx v l < l.length := by
  induction l with
  | nil => cases h
  | cons a l ih =>
    by_cases ha : a = v
    · simp [invIdx, ha]
    · rcases List.mem_cons.1 h with h | h
      · exact absurd h.symm ha
      · simpa [invIdx, ha, Nat.succ_lt_succ_iff] using ih h

theorem getD_invIdx {v : Nat} {l : List Nat} (h : v ∈ l) : l.getD (invIdx v l) 0 = v := by
  induction l with
  | nil => cases h
  | cons a l ih =>
    by_cases ha : a = v
    · simp [invIdx, ha]
    · rcases List.mem_cons.1 h with h | h
      · exact absurd h.symm ha
      · simpa [invIdx, ha] using ih h

theorem invIdx_getD {l : List Nat} (hnd : l.Nodup) {x : Nat} (hx : x < l.length) :
    invIdx (l.getD x 0) l = x := by
  induction l generalizing x with
  | nil => cases hx
  | cons a l ih =>
    rcases List.nodup_cons.1 hnd with ⟨hna, hnd'⟩
    cases x with
    | zero => simp [invIdx]
    | succ x =>
      have hx' : x < l.length := by simpa [Nat.succ_lt_succ_iff] using hx
      have hmem : l.getD x 0 ∈ l := by
        rw [List.getD_eq_getElem _ _ hx']
        exact List.getElem_mem hx'
      have ha : a ≠ l.getD x 0 := fun he => hna (he ▸ hmem)
      rw [List.getD_cons_succ]
      show (if a = l.getD x 0 then 0 else invIdx (l.getD x 0) l + 1) = x + 1
      rw [if_neg ha, ih hnd' hx']

/-! ### Iterates of a permutation of `{0,...,n-1}`

`swapLoop` mutates `l`/`linv` in a way that leaves stale entries behind, so
the proofs track a *ghost* permutation `σ` (with explicit inverse `σinv`)
that agrees with `l`/`linv` on the entries the loop still reads. -/

/-- `σ`, with two-sided inverse `σinv`, permutes `{0,...,n-1}`. -/
structure PermOn (n : Nat) (σ σinv : Nat → Nat) : Prop where
  maps : ∀ x, x < n → σ x < n
  invMaps : ∀ x, x < n → σinv x < n
  leftInv : ∀ x, x < n → σinv (σ x) = x
  rightInv : ∀ x, x < n → σ (σinv x) = x

theorem iter_lt {σ : Nat → Nat} {n : Nat} (hmap : ∀ x, x < n → σ x < n)
    {j : Nat} (hj : j < n) : ∀ k, σ^[k] j < n := by
  intro k
  induction k with
  | zero => simpa using hj
  | succ k ih =>
    rw [Function.iterate_succ_apply']
    exact hmap _ ih

theorem permOn_inj {n : Nat} {σ σinv : Nat → Nat} (hp : PermOn n σ σinv)
    {x y : Nat} (hx : x < n) (hy : y < n) (h : σ x = σ y) : x = y := by
  have h2 := congrArg σinv h
  rwa [hp.leftInv _ hx, hp.leftInv _ hy] at h2

theorem iter_cancel {n : Nat} {σ σinv : Nat → Nat} (hp : PermOn n σ σinv) :
    ∀ (m : Nat) {x y : Nat}, x < n → y < n → σ^[m] x = σ^[m] y → x = y := by
  intro m
  induction m with
  | zero => intro x y _ _ h; simpa using h
  | succ m ih =>
    intro x y hx hy h
    rw [Function.iterate_succ_apply', Function.iterate_succ_apply'] at h
    exact ih hx hy (permOn_inj hp (iter_lt hp.maps hx m) (iter_lt hp.maps hy m) h)

theorem exists_period {n : Nat} {σ σinv : Nat → Nat} (hp : PermOn n σ σinv)
    {j : Nat} (hj : j < n) : ∃ p, 0 < p ∧ p ≤ n ∧ σ^[p] j = j := by
  have hmt : ∀ a ∈ Finset.range (n+1), σ^[a] j ∈ Finset.range n := fun a _ =>
    Finset.mem_range.2 (iter_lt hp.maps hj a)
  have hcard : (Finset.range n).card < (Finset.range (n+1)).card := by simp
  obtain ⟨x, hx, y, hy, hxy, hfe⟩ :=
    Finset.exists_ne_map_eq_of_card_lt_of_maps_to hcard hmt
  have key : ∀ a b : Nat, a < b → b ≤ n → σ^[a] j = σ^[b] j →
      ∃ p, 0 < p ∧ p ≤ n ∧ σ^[p] j = j := by
    intro a b hab hbn he
    refine ⟨b - a, Nat.sub_pos_of_lt hab, le_trans (Nat.sub_le _ _) hbn, ?_⟩
    have hsum : a + (b - a) = b := Nat.add_sub_cancel' (le_of_lt hab)
    have h2 : σ^[a] (σ^[b - a] j) = σ^[a] j := by
      rw [← Function.iterate_add_apply, hsum, he]
    exact iter_cancel hp a (iter_lt hp.maps hj _) hj h2
  rcases Nat.lt_or_ge x y with hlt | hge
  · exact key x y hlt (Nat.lt_succ_iff.1 (Finset.mem_range.1 hy)) hfe
  · have hlt : y < x := lt_of_le_of_ne hge (fun he => hxy he.symm)
    exact key y x hlt (Nat.lt_succ_iff.1 (Finset.mem_range.1 hx)) hfe.symm

/-- For a permutation of `{0,...,n-1}`, the bounded cycle-maximum test of
`isCycleMaxB` is equivalent to the unbounded one. -/
theorem isCycleMaxB_iff_forall {n : Nat} {σ σinv : Nat → Nat} (hp : PermOn n σ σinv)
    {j : Nat} (hj : j < n) : isCycleMaxB σ n j = true ↔ ∀ k, σ^[k] j ≤ j := by
  constructor
  · intro h k
    have hb : ∀ k' < n, σ^[k'] j ≤ j := of_decide_eq_true h
    obtain ⟨p, hp0, hpn, hpj⟩ := exists_period hp hj
    have hfix : σ^[p * (k / p)] j = j := by
      rw [Function.iterate_mul]
      exact Function.iterate_fixed hpj _
    have hk : σ^[k] j = σ^[k % p] j := by
      conv_lhs => rw [← Nat.mod_add_div k p]
      rw [Function.iterate_add_apply, hfix]
    rw [hk]
    exact hb _ (lt_of_lt_of_le (Nat.mod_lt _ hp0) hpn)
  · intro h
    exact decide_eq_true (fun k _ => h k)

/-- `spliceFix f a b c` is `f` with `a ↦ a` and `b ↦ c`: the ghost update
matching one emitted swap of `swapLoop`. -/
def spliceFix (f : Nat → Nat) (a b c : Nat) : Nat → Nat :=
  Function.update (Function.update f a a) b c

theorem spliceFix_fst {f : Nat → Nat} {a b c : Nat} (hab : a ≠ b) :
    spliceFix f a b c a = a := by
  unfold spliceFix
  rw [Function.update_noteq hab, Function.update_same]

theorem spliceFix_snd {f : Nat → Nat} {a b c : Nat} : spliceFix f a b c b = c := by
  unfold spliceFix
  rw [Function.update_same]

theorem spliceFix_other {f : Nat → Nat} {a b c x : Nat} (hxa : x ≠ a) (hxb : x ≠ b) :
    spliceFix f a b c x = f x := by
  unfold spliceFix
  rw [Function.update_noteq hxb, Function.update_noteq hxa]

/-- Context for one emitted swap of `swapLoop`: the ghost permutation `σ`
fixes everything below `i`, sends `i` to `t1 ≠ i` and `t2` to `i`. -/
structure SpliceCtx (n i t1 t2 : Nat) (σ σinv : Nat → Nat) : Prop where
  hp : PermOn n σ σinv
  hin : i < n
  ht1 : σ i = t1
  ht1i : t1 ≠ i
  ht1n : t1 < n
  hit1 : i < t1
  ht2 : σ t2 = i
  ht2i : t2 ≠ i
  ht2n : t2 < n
  hit2 : i < t2

theorem permOn_spliceFix {n i t1 t2 : Nat} {σ σinv : Nat → Nat}
    (c : SpliceCtx n i t1 t2 σ σinv) :
    PermOn n (spliceFix σ i t2 t1) (spliceFix σinv i t1 t2) := by
  constructor
  · intro x hx
    by_cases hxt2 : x = t2
    · rw [hxt2, spliceFix_snd]; exact c.ht1n
    · by_cases hxi : x = i
      · rw [hxi, spliceFix_fst (Ne.symm c.ht2i)]; exact c.hin
      · rw [spliceFix_other hxi hxt2]; exact c.hp.maps x hx
  · intro x hx
    by_cases hxt1 : x = t1
    · rw [hxt1, spliceFix_snd]; exact c.ht2n
    · by_cases hxi : x = i
      · rw [hxi, spliceFix_fst (Ne.symm c.ht1i)]; exact c.hin
      · rw [spliceFix_other hxi hxt1]; exact c.hp.invMaps x hx
  · intro x hx
    by_cases hxt2 : x = t2
    · rw [hxt2, spliceFix_snd, spliceFix_snd]
    · by_cases hxi : x = i
      · rw [hxi, spliceFix_fst (Ne.symm c.ht2i), spliceFix_fst (Ne.symm c.ht1i)]
      · rw [spliceFix_other hxi hxt2]
        have hσi : σ x ≠ i := fun he =>
          hxt2 (permOn_inj c.hp hx c.ht2n (by rw [he, c.ht2]))
        have hσt1 : σ x ≠ t1 := fun he =>
          hxi (permOn_inj c.hp hx c.hin (by rw [he, c.ht1]))
        rw [spliceFix_other hσi hσt1]
        exact c.hp.leftInv x hx
  · intro x hx
    by_cases hxt1 : x = t1
    · rw [hxt1, spliceFix_snd, spliceFix_snd]
    · by_cases hxi : x = i
      · rw [hxi, spliceFix_fst (Ne.symm c.ht1i), spliceFix_fst (Ne.symm c.ht2i)]
      · rw [spliceFix_other hxi hxt1]
        have hri := c.hp.rightInv x hx
        have hvt2 : σinv x ≠ t2 := fun he => hxi (by rw [← hri, he, c.ht2])
        have hvi : σinv x ≠ i := fun he => hxt1 (by rw [← hri, he, c.ht1])
        rw [spliceFix_other hvi hvt2]
        exact hri

theorem spliceFix_iter_eq {n i t1 t2 : Nat} {σ σinv : Nat → Nat}
    (c : SpliceCtx n i t1 t2 σ σinv) {j : Nat}
    (hni : ∀ k, σ^[k] j ≠ i) : ∀ k, (spliceFix σ i t2 t1)^[k] j = σ^[k] j := by
  intro k
  induction k with
  | zero => rfl
  | succ k ih =>
    rw [Function.iterate_succ_apply', Function.iterate_succ_apply', ih]
    have hyt2 : σ^[k] j ≠ t2 := by
      intro he
      apply hni (k+1)
      rw [Function.iterate_succ_apply', he, c.ht2]
    exact spliceFix_other (hni k) hyt2

theorem spliceFix_iter_sub {n i t1 t2 : Nat} {σ σinv : Nat → Nat}
    (c : SpliceCtx n i t1 t2 σ σinv) {j : Nat} (hj : j < n) (hji : j ≠ i) :
    ∀ k, ∃ m, (spliceFix σ i t2 t1)^[k] j = σ^[m] j ∧
      (spliceFix σ i t2 t1)^[k] j ≠ i := by
  intro k
  induction k with
  | zero => exact ⟨0, rfl, hji⟩
  | succ k ih =>
    obtain ⟨m, he, hne⟩ := ih
    by_cases hyt2 : (spliceFix σ i t2 t1)^[k] j = t2
    · refine ⟨m + 2, ?_, ?_⟩
      · rw [Function.iterate_succ_apply', hyt2, spliceFix_snd]
        have h1 : σ^[m] j = t2 := by rw [← he, hyt2]
        rw [show m + 2 = (m+1)+1 from rfl, Function.iterate_succ_apply',
          Function.iterate_succ_apply', h1, c.ht2, c.ht1]
      · rw [Function.iterate_succ_apply', hyt2, spliceFix_snd]
        exact c.ht1i
    · refine ⟨m + 1, ?_, ?_⟩
      · rw [Function.iterate_succ_apply', spliceFix_other hne hyt2, he]
        exact (Function.iterate_succ_apply' σ m j).symm
      · rw [Function.iterate_succ_apply', spliceFix_other hne hyt2]
        intro hcon
        apply hyt2
        have hyn : (spliceFix σ i t2 t1)^[k] j < n := by
          rw [he]; exact iter_lt c.hp.maps hj m
        exact permOn_inj c.hp hyn c.ht2n (by rw [hcon, c.ht2])

theorem iter_sub_rev {n i t1 t2 : Nat} {σ σinv : Nat → Nat}
    (c : SpliceCtx n i t1 t2 σ σinv) {j : Nat} (hj : j < n) (hji : j ≠ i) :
    ∀ k, (σ^[k] j ≠ i ∧ ∃ m, (spliceFix σ i t2 t1)^[m] j = σ^[k] j)
       ∨ (σ^[k] j = i ∧ ∃ m, (spliceFix σ i t2 t1)^[m] j = t1) := by
  intro k
  induction k with
  | zero => exact Or.inl ⟨hji, 0, rfl⟩
  | succ k ih =>
    rcases ih with ⟨hne, m, hm⟩ | ⟨he, m, hm⟩
    · by_cases hyt2 : σ^[k] j = t2
      · refine Or.inr ⟨?_, m + 1, ?_⟩
        · rw [Function.iterate_succ_apply', hyt2, c.ht2]
        · rw [Function.iterate_succ_apply', hm, hyt2, spliceFix_snd]
      · refine Or.inl ⟨?_, m + 1, ?_⟩
        · intro hcon
          apply hyt2
          rw [Function.iterate_succ_apply'] at hcon
          exact permOn_inj c.hp (iter_lt c.hp.maps hj k) c.ht2n (by rw [hcon, c.ht2])
        · rw [Function.iterate_succ_apply', Function.iterate_succ_apply', hm,
            spliceFix_other hne hyt2]
    · refine Or.inl ⟨?_, m, ?_⟩
      · rw [Function.iterate_succ_apply', he, c.ht1]
        exact c.ht1i
      · rw [Function.iterate_succ_apply', he, c.ht1, hm]

theorem i_lt_of_orbit {n i t1 t2 : Nat} {σ σinv : Nat → Nat}
    (_ : SpliceCtx n i t1 t2 σ σinv) (hfix : ∀ x, x < i → σ x = x)
    {j : Nat} (hji : j ≠ i) (hP : ∃ k, σ^[k] j = i) : i < j := by
  by_contra hc
  push_neg at hc
  have hji2 : j < i := lt_of_le_of_ne hc hji
  obtain ⟨k, hk⟩ := hP
  rw [Function.iterate_fixed (hfix j hji2) k] at hk
  exact hji hk

theorem maxU_splice_iff {n i t1 t2 : Nat} {σ σinv : Nat → Nat}
    (c : SpliceCtx n i t1 t2 σ σinv) (hfix : ∀ x, x < i → σ x = x)
    {j : Nat} (hj : j < n) (hji : j ≠ i) :
    (∀ k, (spliceFix σ i t2 t1)^[k] j ≤ j) ↔ (∀ k, σ^[k] j ≤ j) := by
  by_cases hP : ∃ k, σ^[k] j = i
  · have hij := i_lt_of_orbit c hfix hji hP
    constructor
    · intro h k
      rcases iter_sub_rev c hj hji k with ⟨_, m, hm⟩ | ⟨he, _⟩
      · rw [← hm]; exact h m
      · rw [he]; exact le_of_lt hij
    · intro h k
      obtain ⟨m, he, _⟩ := spliceFix_iter_sub c hj hji k
      rw [he]; exact h m
  · push_neg at hP
    constructor
    · intro h k; rw [← spliceFix_iter_eq c hP k]; exact h k
    · intro h k; rw [spliceFix_iter_eq c hP k]; exact h k

theorem isCycleMaxB_splice_eq {n i t1 t2 : Nat} {σ σinv : Nat → Nat}
    (c : SpliceCtx n i t1 t2 σ σinv) (hfix : ∀ x, x < i → σ x = x)
    {j : Nat} (hj : j < n) (hji : j ≠ i) :
    isCycleMaxB (spliceFix σ i t2 t1) n j = isCycleMaxB σ n j := by
  have h1 := isCycleMaxB_iff_forall (permOn_spliceFix c) hj
  have h2 := isCycleMaxB_iff_forall c.hp hj
  have hiff := maxU_splice_iff c hfix hj hji
  cases hb : isCycleMaxB σ n j with
  | true => exact h1.2 (hiff.2 (h2.1 hb))
  | false =>
    rcases Bool.eq_false_or_eq_true (isCycleMaxB (spliceFix σ i t2 t1) n j) with h | h
    · have hσ := h2.2 (hiff.1 (h1.1 h))
      rw [hσ] at hb
      simp at hb
    · exact h

theorem isCycleMaxB_splice_at_i {n i t1 t2 : Nat} {σ σinv : Nat → Nat}
    (c : SpliceCtx n i t1 t2 σ σinv) :
    isCycleMaxB (spliceFix σ i t2 t1) n i = true := by
  apply decide_eq_true
  intro k _
  rw [Function.iterate_fixed (spliceFix_fst (Ne.symm c.ht2i)) k]

theorem isCycleMaxB_at_i_false {n i t1 t2 : Nat} {σ σinv : Nat → Nat}
    (c : SpliceCtx n i t1 t2 σ σinv) : isCycleMaxB σ n i = false := by
  have hit1 := c.hit1
  have ht1n := c.ht1n
  have h2n : 1 < n := by omega
  apply decide_eq_false
  intro hall
  have h1 := hall 1 h2n
  rw [Function.iterate_one, c.ht1] at h1
  exact absurd h1 (not_le.2 c.hit1)

theorem countP_flip_at {p q : Nat → Bool} {n i : Nat} (hin : i < n)
    (hagree : ∀ x, x < n → x ≠ i → p x = q x) (hpi : p i = true) (hqi : q i = false) :
    (List.range n).countP p = (List.range n).countP q + 1 := by
  have hi : i ∈ List.range n := List.mem_range.2 hin
  have hperm := List.perm_cons_erase hi
  rw [hperm.countP_eq p, hperm.countP_eq q, List.countP_cons, List.countP_cons, hpi, hqi]
  have herase : ∀ a ∈ (List.range n).erase i, (p a = true ↔ q a = true) := by
    intro a ha
    have hane := ((List.nodup_range n).mem_erase_iff).1 ha
    rw [hagree a (List.mem_range.1 hane.2) hane.1]
  rw [List.countP_congr herase]
  simp

theorem cmc_splice {n i t1 t2 : Nat} {σ σinv : Nat → Nat}
    (c : SpliceCtx n i t1 t2 σ σinv) (hfix : ∀ x, x < i → σ x = x) :
    cmc (spliceFix σ i t2 t1) n = cmc σ n + 1 :=
  countP_flip_at c.hin (fun _ hj hji => isCycleMaxB_splice_eq c hfix hj hji)
    (isCycleMaxB_splice_at_i c) (isCycleMaxB_at_i_false c)

/-- Main invariant induction for `swapLoop`: processing the indices
`i, i+1, ..., n-1`, with `l`/`linv` agreeing with a ghost permutation
`σ`/`σinv` on the not-yet-stale entries, the emitted swaps compose to `σ`
and their number plus the cycle count of `σ` is `n`. -/
theorem swapLoop_spec (n : Nat) : ∀ (k i : Nat) (l linv σ σinv : Nat → Nat),
    i + k = n →
    PermOn n σ σinv →
    (∀ j, j < i → σ j = j) →
    (∀ j, i ≤ j → j < n → l j = σ j) →
    (∀ v, i ≤ v → v < n → linv v = σinv v) →
    (∀ x, x < n → applyTrans (swapLoop (List.range' i k) l linv) x = σ x)
    ∧ (swapLoop (List.range' i k) l linv).length + cmc σ n = n := by
  intro k
  induction k with
  | zero =>
    intro i l linv σ σinv hik hp hfix hl hlinv
    have hin : i = n := by omega
    subst hin
    constructor
    · intro x hx
      show applyTrans [] x = σ x
      rw [applyTrans_nil, hfix x hx]
    · show ([] : List (Nat × Nat)).length + cmc σ i = i
      have hall : ∀ a ∈ List.range i, isCycleMaxB σ i a = true := by
        intro a ha
        apply decide_eq_true
        intro k' _
        rw [Function.iterate_fixed (hfix a (List.mem_range.1 ha)) k']
      have : cmc σ i = i := by
        rw [show cmc σ i = (List.range i).countP (isCycleMaxB σ i) from rfl,
          List.countP_eq_length.2 hall, List.length_range]
      rw [this]
      simp
  | succ k ih =>
    intro i l linv σ σinv hik hp hfix hl hlinv
    have hin : i < n := by omega
    rw [List.range'_succ]
    by_cases hli : l i = i
    · have hσi : σ i = i := by rw [← hl i le_rfl hin, hli]
      have hsl : swapLoop (i :: List.range' (i+1) k) l linv
          = swapLoop (List.range' (i+1) k) l linv := by
        simp [swapLoop, hli]
      rw [hsl]
      apply ih (i+1) l linv σ σinv (by omega) hp
      · intro j hj
        rcases Nat.lt_or_ge j i with h | h
        · exact hfix j h
        · have : j = i := by omega
          rw [this, hσi]
      · intro j hj hjn
        exact hl j (by omega) hjn
      · intro v hv hvn
        exact hlinv v (by omega) hvn
    · -- emit case
      have hσi : σ i = l i := (hl i le_rfl hin).symm
      have ht1i : l i ≠ i := hli
      have ht1n : l i < n := by rw [← hσi]; exact hp.maps i hin
      have hit1 : i < l i := by
        rcases Nat.lt_or_ge i (l i) with h | h
        · exact h
        · exfalso
          have hlt : l i < i := lt_of_le_of_ne h ht1i
          have h1 : σ (l i) = l i := hfix _ hlt
          have h2 : σ (l i) = σ i := by rw [h1, hσi]
          exact ht1i (permOn_inj hp ht1n hin h2)
      have hlinvi : linv i = σinv i := hlinv i le_rfl hin
      have ht2σ : σ (linv i) = i := by rw [hlinvi]; exact hp.rightInv i hin
      have ht2n : linv i < n := by rw [hlinvi]; exact hp.invMaps i hin
      have ht2i : linv i ≠ i := by
        intro he
        rw [he] at ht2σ
        rw [ht2σ] at hσi
        exact ht1i hσi.symm
      have hit2 : i < linv i := by
        rcases Nat.lt_or_ge i (linv i) with h | h
        · exact h
        · exfalso
          have hlt : linv i < i := lt_of_le_of_ne h ht2i
          have h1 : σ (linv i) = linv i := hfix _ hlt
          rw [ht2σ] at h1
          exact ht2i h1.symm
      have c : SpliceCtx n i (l i) (linv i) σ σinv :=
        ⟨hp, hin, hσi, ht1i, ht1n, hit1, ht2σ, ht2i, ht2n, hit2⟩
      have hp' := permOn_spliceFix c
      have hfix' : ∀ j, j < i + 1 → spliceFix σ i (linv i) (l i) j = j := by
        intro j hj
        rcases Nat.lt_or_ge j i with h | h
        · rw [spliceFix_other (Nat.ne_of_lt h) (Nat.ne_of_lt (lt_trans h hit2))]
          exact hfix j h
        · have : j = i := by omega
          rw [this, spliceFix_fst (Ne.symm ht2i)]
      have hl' : ∀ j, i + 1 ≤ j → j < n →
          Function.update l (linv i) (l i) j = spliceFix σ i (linv i) (l i) j := by
        intro j hj hjn
        by_cases hjt2 : j = linv i
        · rw [hjt2, Function.update_same, spliceFix_snd]
        · rw [Function.update_noteq hjt2, spliceFix_other (by omega) hjt2]
          exact hl j (by omega) hjn
      have hlinv' : ∀ v, i + 1 ≤ v → v < n →
          Function.update linv (l i) (linv i) v = spliceFix σinv i (l i) (linv i) v := by
        intro v hv hvn
        by_cases hvt1 : v = l i
        · rw [hvt1, Function.update_same, spliceFix_snd]
        · rw [Function.update_noteq hvt1, spliceFix_other (by omega) hvt1]
          exact hlinv v (by omega) hvn
      obtain ⟨ihc, ihl⟩ := ih (i+1) (Function.update l (linv i) (l i))
        (Function.update linv (l i) (linv i))
        (spliceFix σ i (linv i) (l i)) (spliceFix σinv i (l i) (linv i))
        (by omega) hp' hfix' hl' hlinv'
      have hsl : swapLoop (i :: List.range' (i+1) k) l linv
          = (i, linv i) :: swapLoop (List.range' (i+1) k)
              (Function.update l (linv i) (l i))
              (Function.update linv (l i) (linv i)) := by
        simp [swapLoop, hli]
      rw [hsl]
      constructor
      · intro x hx
        rw [applyTrans_cons]
        have hswn : swapFn i (linv i) x < n := by
          unfold swapFn
          split_ifs
          · exact ht2n
          · exact hin
          · exact hx
        rw [ihc _ hswn]
        by_cases hxi : x = i
        · rw [hxi]
          have hsw : swapFn i (linv i) i = linv i := by simp [swapFn]
          rw [hsw, spliceFix_snd, hσi]
        · by_cases hxt2 : x = linv i
          · rw [hxt2]
            have hsw : swapFn i (linv i) (linv i) = i := by simp [swapFn, Ne.symm ht2i]
            rw [hsw, spliceFix_fst (Ne.symm ht2i), ht2σ]
          · have hsw : swapFn i (linv i) x = x := by simp [swapFn, hxi, hxt2]
            rw [hsw, spliceFix_other hxi hxt2]
      · rw [List.length_cons]
        have hstep := cmc_splice c hfix
        rw [hstep] at ihl
        omega

/-- **C2** (confirmed).  For every permutation given as a dictionary that is
a bijection on `{0,...,n-1}` (embedded: a list `perm` that is a
rearrangement of `[0,...,n-1]`), `permutation_as_swaps` returns exactly
`n` minus the number of cycles of the permutation (fixed points counted as
length-1 cycles) swap pairs, and applying the returned transpositions in
order to the identity arrangement `[0,...,n-1]` reproduces the permutation
exactly. -/
theorem permutation_as_swaps_spec (perm : List Nat)
    (hperm : perm.Perm (List.range perm.length)) :
    (permutation_as_swaps perm).length = perm.length - cycleCount perm
    ∧ applySwapsTo (permutation_as_swaps perm) (List.range perm.length) = perm := by
  have hnd : perm.Nodup := (hperm.nodup_iff).2 (List.nodup_range _)
  have hmem : ∀ x, x ∈ perm ↔ x < perm.length := fun x => by
    rw [hperm.mem_iff, List.mem_range]
  have hp : PermOn perm.length (fun x => perm.getD x 0) (fun v => invIdx v perm) := by
    constructor
    · intro x hx
      have hmm : perm.getD x 0 ∈ perm := by
        rw [List.getD_eq_getElem _ _ hx]
        exact List.getElem_mem hx
      exact (hmem _).1 hmm
    · intro v hv
      exact invIdx_lt_length ((hmem v).2 hv)
    · intro x hx
      exact invIdx_getD hnd hx
    · intro v hv
      exact getD_invIdx ((hmem v).2 hv)
  obtain ⟨hcomp, hcount⟩ := swapLoop_spec perm.length perm.length 0
    (fun x => perm.getD x 0) (fun v => invIdx v perm)
    (fun x => perm.getD x 0) (fun v => invIdx v perm)
    (Nat.zero_add _) hp (fun j hj => absurd hj (Nat.not_lt_zero j))
    (fun _ _ _ => rfl) (fun _ _ _ => rfl)
  rw [← List.range_eq_range'] at hcomp hcount
  constructor
  · have hcc : cycleCount perm = cmc (fun x => perm.getD x 0) perm.length := rfl
    rw [show permutation_as_swaps perm
      = swapLoop (List.range perm.length) (fun x => perm.getD x 0)
          (fun v => invIdx v perm) from rfl, hcc]
    omega
  · rw [show permutation_as_swaps perm
      = swapLoop (List.range perm.length) (fun x => perm.getD x 0)
          (fun v => invIdx v perm) from rfl]
    rw [applySwapsTo_eq_map]
    apply List.ext_getElem
    · simp
    · intro m h1 h2
      have hm : m < perm.length := by simpa using h2
      rw [List.getElem_map, List.getElem_range]
      rw [hcomp m hm]
      exact List.getD_eq_getElem perm 0 hm

/-- Witness for **C2** at the spec's own example `{0→1, 1→2, 2→0}`:
exactly `2` swaps, and applying them to `[0,1,2]` yields `[1,2,0]`. -/
theorem permutation_as_swaps_spec_witness :
    ([1,2,0] : List Nat).Perm (List.range 3)
    ∧ (permutation_as_swaps [1,2,0]).length = 2
    ∧ applySwapsTo (permutation_as_swaps [1,2,0]) [0,1,2] = [1,2,0] := by
  have h := permutation_as_swaps_spec [1,2,0] (by decide)
  refine ⟨by decide, ?_, ?_⟩
  · rw [h.1]
    rfl
  · have h2 := h.2
    rwa [show List.range ([1,2,0] : List Nat).length = [0,1,2] from rfl] at h2

/-!
## CZ-Overlap Optimizer: `max_overlap` (extract.py lines 625-657)

The Python function scans all row pairs `i < j` of a square matrix
`cz_matrix` (with `N = len(cz_matrix.data[0])`), computes for each pair
the inner product (number of columns where both rows are nonzero) and the
list of those columns, keeps the pair with the strictly largest inner
product, and on update orders the stored pair by total row sum (larger
first, `[i,j]` on ties).  It returns `[overlapping_rows, final_common_qbs]`.
-/

/-- Total row sum `sum(row[k] for k in range(N))` (`i_czs`/`j_czs` in the
code; for a 0/1 matrix this is the number of nonzero entries). -/
def rowWeight (N : Nat) (row : List Nat) : Nat :=
  ((List.range N).map (fun k => row.getD k 0)).sum

/-- The common qubits of two rows: the `k < N` with both entries nonzero
(`common_qbs`, collected in increasing `k`). -/
def commonQbs (N : Nat) (ri rj : List Nat) : List Nat :=
  (List.range N).filter (fun k => decide (ri.getD k 0 ≠ 0) && decide (rj.getD k 0 ≠ 0))

/-- `inner_product` of two rows: the number of common qubits. -/
def innerProd (N : Nat) (ri rj : List Nat) : Nat := (commonQbs N ri rj).length

/-- One pair-step of `max_overlap`'s scan: update the running
`(max_inner_product, overlapping_rows, final_common_qbs)` when this pair's
inner product strictly exceeds the running maximum; on update the row with
the larger weight is put first (`[i,j]` on ties). -/
def moStep (data : List (List Nat)) (N : Nat)
    (st : Nat × List Nat × List Nat) (p : Nat × Nat) : Nat × List Nat × List Nat :=
  let ri := data.getD p.1 []
  let rj := data.getD p.2 []
  let ip := innerProd N ri rj
  if st.1 < ip then
    (ip, if rowWeight N ri < rowWeight N rj then [p.2, p.1] else [p.1, p.2],
      commonQbs N ri rj)
  else st

/-- All pairs `(i,j)` with `i < j < N`, in the scan order of the nested
loops `for i in range(N): for j in range(i+1,N):`. -/
def allPairs (N : Nat) : List (Nat × Nat) :=
  (List.range N).flatMap (fun i => (List.range' (i+1) (N - (i+1))).map (fun j => (i, j)))

/-- Embedding of `max_overlap` (extract.py lines 625-657), returning the
pair `(overlapping_rows, final_common_qbs)`. -/
def max_overlap (data : List (List Nat)) : List Nat × List Nat :=
  let N := (data.headD []).length
  let st := (allPairs N).foldl (moStep data N) (0, [], [])
  (st.2.1, st.2.2)

theorem mem_allPairs {N a b : Nat} : (a, b) ∈ allPairs N ↔ a < b ∧ b < N := by
  unfold allPairs
  rw [List.mem_flatMap]
  constructor
  · rintro ⟨x, hx, hmem⟩
    rw [List.mem_map] at hmem
    obtain ⟨y, hy, he⟩ := hmem
    obtain ⟨he1, he2⟩ := Prod.mk.injEq .. ▸ he
    rw [List.mem_range] at hx
    rw [List.mem_range'_1] at hy
    subst he1; subst he2
    omega
  · rintro ⟨hab, hbN⟩
    refine ⟨a, List.mem_range.2 (lt_trans hab hbN), ?_⟩
    rw [List.mem_map]
    exact ⟨b, List.mem_range'_1.2 (by omega), rfl⟩

theorem moFold_stable (data : List (List Nat)) (N k : Nat) :
    ∀ (l : List (Nat × Nat)) (st : Nat × List Nat × List Nat), st.1 = k →
    (∀ q ∈ l, innerProd N (data.getD q.1 []) (data.getD q.2 []) ≤ k) →
    l.foldl (moStep data N) st = st := by
  intro l
  induction l with
  | nil => intro st _ _; rfl
  | cons q l ih =>
    intro st hst hle
    have hq := hle q (List.mem_cons_self q l)
    have hstep : moStep data N st q = st := by
      unfold moStep
      rw [if_neg (by omega)]
    rw [List.foldl_cons, hstep]
    exact ih st hst (fun q' hq' => hle q' (List.mem_cons_of_mem _ hq'))

theorem moFold_hit (data : List (List Nat)) (N k i0 j0 : Nat)
    (hvstar : innerProd N (data.getD i0 []) (data.getD j0 []) = k) :
    ∀ (l : List (Nat × Nat)) (st : Nat × List Nat × List Nat),
    (i0, j0) ∈ l →
    (∀ q ∈ l, q ≠ (i0, j0) → innerProd N (data.getD q.1 []) (data.getD q.2 []) < k) →
    st.1 < k →
    l.foldl (moStep data N) st =
      (k,
       if rowWeight N (data.getD i0 []) < rowWeight N (data.getD j0 [])
         then [j0, i0] else [i0, j0],
       commonQbs N (data.getD i0 []) (data.getD j0 [])) := by
  intro l
  induction l with
  | nil => intro st h; cases h
  | cons q l ih =>
    intro st hmem hlt hst
    by_cases hq : q = (i0, j0)
    · subst hq
      have hstep : moStep data N st (i0, j0) =
          (k,
           if rowWeight N (data.getD i0 []) < rowWeight N (data.getD j0 [])
             then [j0, i0] else [i0, j0],
           commonQbs N (data.getD i0 []) (data.getD j0 [])) := by
        show (if st.1 < innerProd N (data.getD i0 []) (data.getD j0 []) then _ else st) = _
        rw [hvstar, if_pos hst]
      rw [List.foldl_cons, hstep]
      apply moFold_stable data N k
      · rfl
      · intro q' hq'
        by_cases hq'star : q' = (i0, j0)
        · rw [hq'star]
          exact le_of_eq hvstar
        · exact le_of_lt (hlt q' (List.mem_cons_of_mem _ hq') hq'star)
    · have hmem' : (i0, j0) ∈ l := by
        rcases List.mem_cons.1 hmem with h | h
        · exact absurd h.symm hq
        · exact h
      rw [List.foldl_cons]
      apply ih _ hmem' (fun q' hq' => hlt q' (List.mem_cons_of_mem _ hq'))
      have hqlt := hlt q (List.mem_cons_self q l) hq
      show (if st.1 < innerProd N (data.getD q.1 []) (data.getD q.2 []) then _ else st).1 < k
      split
      · exact hqlt
      · exact hst

/-- **C9** (confirmed).  For a symmetric 0/1 adjacency matrix in which rows
`i` and `j` (`i < j`) share exactly `k > 2` common nonzero columns and
every other row pair shares strictly fewer, `max_overlap` returns that
pair ordered with the row of larger total row-weight first, together with
exactly the list of their `k` common column indices. -/
theorem max_overlap_spec (data : List (List Nat)) (N i j k : Nat)
    (hN : N = (data.headD []).length)
    (_hrows : data.length = N)
    (_hlen : ∀ row ∈ data, row.length = N)
    (_h01 : ∀ row ∈ data, ∀ x ∈ row, x ≤ 1)
    (_hsym : ∀ a, a < N → ∀ b, b < N →
      (data.getD a []).getD b 0 = (data.getD b []).getD a 0)
    (hij : i < j) (hjN : j < N)
    (hk : innerProd N (data.getD i []) (data.getD j []) = k)
    (hk2 : 2 < k)
    (hmax : ∀ b, b < N → ∀ a, a < b → (a, b) ≠ (i, j) →
      innerProd N (data.getD a []) (data.getD b []) < k) :
    (max_overlap data).2 = commonQbs N (data.getD i []) (data.getD j []) ∧
    (max_overlap data).2.length = k ∧
    ((rowWeight N (data.getD j []) ≤ rowWeight N (data.getD i []) ∧
        (max_overlap data).1 = [i, j]) ∨
      (rowWeight N (data.getD i []) < rowWeight N (data.getD j []) ∧
        (max_overlap data).1 = [j, i])) := by
  have hfold := moFold_hit data N k i j hk (allPairs N) (0, [], [])
    (mem_allPairs.2 ⟨hij, hjN⟩)
    (by
      intro q hq hne
      obtain ⟨hab, hbN⟩ := mem_allPairs.1 (show (q.1, q.2) ∈ allPairs N from hq)
      exact hmax q.2 hbN q.1 hab (fun he =>
        hne (by rw [← he])))
    (by omega)
  have hmo : max_overlap data =
      ((if rowWeight N (data.getD i []) < rowWeight N (data.getD j [])
          then [j, i] else [i, j]),
        commonQbs N (data.getD i []) (data.getD j [])) := by
    simp only [max_overlap]
    rw [← hN, hfold]
  rw [hmo]
  refine ⟨rfl, by rw [← hk]; rfl, ?_⟩
  by_cases hw : rowWeight N (data.getD i []) < rowWeight N (data.getD j [])
  · right
    exact ⟨hw, by rw [if_pos hw]⟩
  · left
    exact ⟨le_of_not_lt hw, by rw [if_neg hw]⟩

/-- Witness for **C9**: the symmetric 0/1 matrix
`[[1,1,1,0],[1,1,1,0],[1,1,0,0],[0,0,0,0]]`, whose rows 0 and 1 share the
three common columns `[0,1,2]` while every other pair shares at most two. -/
theorem max_overlap_spec_witness :
    (max_overlap [[1,1,1,0],[1,1,1,0],[1,1,0,0],[0,0,0,0]]).1 = [0, 1] ∧
    (max_overlap [[1,1,1,0],[1,1,1,0],[1,1,0,0],[0,0,0,0]]).2 = [0, 1, 2] := by
  have h := max_overlap_spec [[1,1,1,0],[1,1,1,0],[1,1,0,0],[0,0,0,0]] 4 0 1 3
    (by decide) (by decide) (by decide) (by decide) (by decide)
    (by decide) (by decide) (by decide) (by decide) (by decide)
  rcases h.2.2 with ⟨_, hrows⟩ | ⟨hcon, _⟩
  · refine ⟨hrows, ?_⟩
    rw [h.1]
    decide
  · exact absurd hcon (by decide)

/-!
## Phase-gadget elimination: `reduce_bottom_rows` (extract.py lines 531-554)

```python
def reduce_bottom_rows(m, qubits):
    cols = m.cols()
    leading_one = {}
    adds = []
    for r in range(qubits):
        while True:
            i = next(i for i in range(cols) if m.data[r][i])
            if i in leading_one:
                m.row_add(leading_one[i],r)
                adds.append((leading_one[i],r))
            else:
                leading_one[i] = r
                break
    for r in range(qubits, m.rows()):
        while True:
            if not any(m.data[r]):
                return r
            i = next(i for i in range(cols) if m.data[r][i])
            if i not in leading_one: break
            m.row_add(leading_one[i], r)
            adds.append((leading_one[i],r))
    raise ValueError("Did not find any completely reducable row")
```

The first loop's `next(...)` is *unguarded*: on an all-zero row it raises
`StopIteration` (a distinct outcome from the `ValueError` that callers
catch).  The second loop's `next(...)` is guarded by the `any` check.
-/

/-- Modelled from the spec: the GF(2) Matrix ADT of §6 ("single
row-addition", "construct from boolean data") is an external collaborator
whose code is not under `src/`.  A matrix is its list of rows;
`row_add m r0 r1` adds row `r0` into row `r1` entrywise modulo 2. -/
def row_add (m : List (List Nat)) (r0 r1 : Nat) : List (List Nat) :=
  m.set r1 (List.zipWith (fun x y => (x + y) % 2) (m.getD r1 []) (m.getD r0 []))

/-- First index with a nonzero (truthy) entry, i.e.
`next(i for i in range(cols) if m.data[r][i])`; `none` when the row is all
zero (in Python the unguarded `next` raises `StopIteration` then). -/
def firstNz : List Nat → Option Nat
  | [] => none
  | a :: row => if a ≠ 0 then some 0 else (firstNz row).map (· + 1)

theorem getD_zipWith (f : Nat → Nat → Nat) {a b : List Nat} {j : Nat}
    (hja : j < a.length) (hjb : j < b.length) :
    (List.zipWith f a b).getD j 0 = f (a.getD j 0) (b.getD j 0) := by
  have hj : j < (List.zipWith f a b).length := by
    rw [List.length_zipWith]; omega
  rw [List.getD_eq_getElem _ _ hj, List.getElem_zipWith,
    List.getD_eq_getElem _ _ hja, List.getD_eq_getElem _ _ hjb]

theorem firstNz_none_iff {row : List Nat} : firstNz row = none ↔ ∀ x ∈ row, x = 0 := by
  induction row with
  | nil => simp [firstNz]
  | cons a row ih =>
    by_cases ha : a = 0
    · simp [firstNz, ha, Option.map_eq_none', ih]
    · simp [firstNz, ha]

theorem firstNz_some_lt {row : List Nat} {i : Nat} (h : firstNz row = some i) :
    i < row.length := by
  induction row generalizing i with
  | nil => cases h
  | cons a row ih =>
    by_cases ha : a = 0
    · rw [firstNz, if_neg (by simp [ha])] at h
      obtain ⟨i', hi', he⟩ := Option.map_eq_some'.1 h
      subst he
      simpa using ih hi'
    · rw [firstNz, if_pos (by simp [ha])] at h
      cases h
      simp

theorem firstNz_some_ne {row : List Nat} {i : Nat} (h : firstNz row = some i) :
    row.getD i 0 ≠ 0 := by
  induction row generalizing i with
  | nil => cases h
  | cons a row ih =>
    by_cases ha : a = 0
    · rw [firstNz, if_neg (by simp [ha])] at h
      obtain ⟨i', hi', he⟩ := Option.map_eq_some'.1 h
      subst he
      simpa using ih hi'
    · rw [firstNz, if_pos (by simp [ha])] at h
      cases h
      simpa using ha

theorem firstNz_some_zero {row : List Nat} {i : Nat} (h : firstNz row = some i) :
    ∀ j, j < i → row.getD j 0 = 0 := by
  induction row generalizing i with
  | nil => cases h
  | cons a row ih =>
    by_cases ha : a = 0
    · rw [firstNz, if_neg (by simp [ha])] at h
      obtain ⟨i', hi', he⟩ := Option.map_eq_some'.1 h
      subst he
      intro j hj
      cases j with
      | zero => simpa using ha
      | succ j => simpa using ih hi' j (by omega)
    · rw [firstNz, if_pos (by simp [ha])] at h
      cases h
      intro j hj
      omega

theorem firstNz_after {row : List Nat} {i : Nat}
    (hz : ∀ j, j ≤ i → row.getD j 0 = 0) :
    firstNz row = none ∨ ∃ i', firstNz row = some i' ∧ i < i' := by
  cases h : firstNz row with
  | none => exact Or.inl rfl
  | some i' =>
    refine Or.inr ⟨i', rfl, ?_⟩
    by_contra hle
    push_neg at hle
    exact firstNz_some_ne h (hz i' hle)

theorem firstNz_addRow {a b : List Nat} {i : Nat} (hC : a.length = b.length)
    (h1a : ∀ x ∈ a, x < 2) (h1b : ∀ x ∈ b, x < 2)
    (hfa : firstNz a = some i) (hfb : firstNz b = some i) :
    firstNz (List.zipWith (fun x y => (x + y) % 2) a b) = none
    ∨ ∃ i', firstNz (List.zipWith (fun x y => (x + y) % 2) a b) = some i' ∧ i < i' := by
  apply firstNz_after
  intro j hj
  have hia := firstNz_some_lt hfa
  have hja : j < a.length := lt_of_le_of_lt hj hia
  have hjb : j < b.length := by omega
  rw [getD_zipWith _ hja hjb]
  rcases Nat.lt_or_ge j i with hji | hji
  · rw [firstNz_some_zero hfa j hji, firstNz_some_zero hfb j hji]
  · have hje : j = i := by omega
    subst hje
    have ha' : a.getD j 0 ≠ 0 := firstNz_some_ne hfa
    have hb' : b.getD j 0 ≠ 0 := firstNz_some_ne hfb
    have ha2 : a.getD j 0 < 2 := h1a _ (by
      rw [List.getD_eq_getElem _ _ hja]; exact List.getElem_mem hja)
    have hb2 : b.getD j 0 < 2 := h1b _ (by
      rw [List.getD_eq_getElem _ _ hjb]; exact List.getElem_mem hjb)
    omega

theorem row_add_length (m : List (List Nat)) (r0 r1 : Nat) :
    (row_add m r0 r1).length = m.length := by
  unfold row_add
  exact List.length_set ..

theorem row_add_getD_ne (m : List (List Nat)) (r0 r1 j : Nat) (hj : j ≠ r1) :
    (row_add m r0 r1).getD j [] = m.getD j [] := by
  unfold row_add
  rw [List.getD_eq_getElem?_getD, List.getElem?_set_ne (fun he => hj he.symm)]
  exact (List.getD_eq_getElem?_getD m j []).symm

theorem row_add_getD_self (m : List (List Nat)) (r0 r1 : Nat) (h : r1 < m.length) :
    (row_add m r0 r1).getD r1 []
      = List.zipWith (fun x y => (x + y) % 2) (m.getD r1 []) (m.getD r0 []) := by
  unfold row_add
  rw [List.getD_eq_getElem?_getD, List.getElem?_set_self (by omega)]
  rfl

theorem row_add_wf {m : List (List Nat)} {C r0 r1 : Nat}
    (hlen : ∀ row ∈ m, row.length = C) (h01 : ∀ row ∈ m, ∀ x ∈ row, x < 2)
    (hr0 : r0 < m.length) (hr1 : r1 < m.length) :
    (∀ row ∈ row_add m r0 r1, row.length = C)
    ∧ (∀ row ∈ row_add m r0 r1, ∀ x ∈ row, x < 2) := by
  have hmem0 : m.getD r0 [] ∈ m := by
    rw [List.getD_eq_getElem _ _ hr0]; exact List.getElem_mem hr0
  have hmem1 : m.getD r1 [] ∈ m := by
    rw [List.getD_eq_getElem _ _ hr1]; exact List.getElem_mem hr1
  constructor
  · intro row hrow
    rcases List.mem_or_eq_of_mem_set hrow with h | h
    · exact hlen row h
    · subst h
      rw [List.length_zipWith, hlen _ hmem0, hlen _ hmem1]
      simp
  · intro row hrow x hx
    rcases List.mem_or_eq_of_mem_set hrow with h | h
    · exact h01 row h x hx
    · subst h
      rw [List.mem_iff_getElem] at hx
      obtain ⟨idx, hidx, he⟩ := hx
      rw [List.getElem_zipWith] at he
      rw [← he]
      exact Nat.mod_lt _ (by omega)

/-- State threaded through `reduce_bottom_rows`: the matrix `m`, the
`leading_one` dictionary (pivot column ↦ pivot row) and the `adds` list of
recorded row-additions `(control_row, target_row)`. -/
structure RBRSt where
  m : List (List Nat)
  leading : Nat → Option Nat
  adds : List (Nat × Nat)

/-- Result of the inner `while True:` of the seeding loop. -/
inductive SeedOut
  | next (st : RBRSt)
  | stop (st : RBRSt)
  | nofuel (st : RBRSt)

/-- The inner `while True:` of the first (seeding) loop for row `r`, with
explicit fuel: find the row's leading nonzero column (`StopIteration`,
i.e. `stop`, when the row is all zero); if that column already has a
pivot, add the pivot row and repeat, else record the pivot and break. -/
def seedInner : Nat → RBRSt → Nat → SeedOut
  | 0, st, _ => .nofuel st
  | fuel + 1, st, r =>
    match firstNz (st.m.getD r []) with
    | none => .stop st
    | some i =>
      match st.leading i with
      | some lr => seedInner fuel ⟨row_add st.m lr r, st.leading, st.adds ++ [(lr, r)]⟩ r
      | none => .next ⟨st.m, Function.update st.leading i (some r), st.adds⟩

/-- The first loop: `for r in range(qubits)`. -/
def seedRows (C : Nat) : List Nat → RBRSt → SeedOut
  | [], st => .next st
  | r :: rest, st =>
    match seedInner (C + 1) st r with
    | .next st' => seedRows C rest st'
    | .stop st' => .stop st'
    | .nofuel st' => .nofuel st'

/-- Result of the inner `while True:` of the bottom loop. -/
inductive BotOut
  | foundRow (st : RBRSt)
  | advance (st : RBRSt)
  | nofuel (st : RBRSt)

/-- The inner `while True:` of the second loop for row `r`: return the row
when it is all zero (`if not any(m.data[r]): return r`), break to the next
row when its leading column has no pivot, else add the pivot row and
repeat. -/
def botInner : Nat → RBRSt → Nat → BotOut
  | 0, st, _ => .nofuel st
  | fuel + 1, st, r =>
    match firstNz (st.m.getD r []) with
    | none => .foundRow st
    | some i =>
      match st.leading i with
      | none => .advance st
      | some lr => botInner fuel ⟨row_add st.m lr r, st.leading, st.adds ++ [(lr, r)]⟩ r

/-- The possible results of `reduce_bottom_rows`: a found row, the
`ValueError` of line 554, the `StopIteration` escaping the unguarded
`next` of line 539, or fuel exhaustion of the embedding (proved
unreachable). -/
inductive RBRResult
  | found (r : Nat)
  | valueError
  | stopIteration
  | fuelOut
deriving DecidableEq

/-- The second loop: `for r in range(qubits, m.rows())`, falling through to
`raise ValueError` when no row reduces to all-zero. -/
def botRows (C : Nat) : List Nat → RBRSt → RBRResult × RBRSt
  | [], st => (.valueError, st)
  | r :: rest, st =>
    match botInner (C + 1) st r with
    | .foundRow st' => (.found r, st')
    | .advance st' => botRows C rest st'
    | .nofuel st' => (.fuelOut, st')

/-- Embedding of `reduce_bottom_rows(m, qubits)` (extract.py lines
531-554).  Besides the Python result it returns the final state, so that
properties of the matrix mutated in place and of the recorded
row-additions can be stated. -/
def reduce_bottom_rows (m : List (List Nat)) (qubits : Nat) : RBRResult × RBRSt :=
  let C := (m.headD []).length
  match seedRows C (List.range qubits) ⟨m, fun _ => none, []⟩ with
  | .next st => botRows C (List.range' qubits (m.length - qubits)) st
  | .stop st => (.stopIteration, st)
  | .nofuel st => (.fuelOut, st)

/-- How one inner-loop run for row `r` may change the state: only row `r`
of the matrix changes, well-formedness is preserved, and every new
recorded row-addition has a control below `qubits` and target `r`. -/
def RowEvolve (C qubits r : Nat) (st st' : RBRSt) : Prop :=
  st'.m.length = st.m.length
  ∧ (∀ j, j ≠ r → st'.m.getD j [] = st.m.getD j [])
  ∧ (∀ row ∈ st'.m, row.length = C)
  ∧ (∀ row ∈ st'.m, ∀ x ∈ row, x < 2)
  ∧ (∀ p ∈ st'.adds, p ∈ st.adds ∨ (p.1 < qubits ∧ p.2 = r))

theorem seedInner_run (C qubits : Nat) : ∀ (fuel : Nat) (st : RBRSt) (r : Nat),
    (∀ row ∈ st.m, row.length = C) →
    (∀ row ∈ st.m, ∀ x ∈ row, x < 2) →
    r < st.m.length →
    (∀ i lr, st.leading i = some lr → lr ≠ r ∧ lr < st.m.length ∧ lr < qubits ∧
      firstNz (st.m.getD lr []) = some i) →
    (∀ v, firstNz (st.m.getD r []) = some v → C - v < fuel) →
    (firstNz (st.m.getD r []) = none → 0 < fuel) →
    (∃ st', seedInner fuel st r = SeedOut.stop st' ∧ RowEvolve C qubits r st st'
      ∧ st'.leading = st.leading ∧ firstNz (st'.m.getD r []) = none)
    ∨ (∃ st' i, seedInner fuel st r = SeedOut.next st' ∧ RowEvolve C qubits r st st'
      ∧ st.leading i = none ∧ st'.leading = Function.update st.leading i (some r)
      ∧ firstNz (st'.m.getD r []) = some i) := by
  intro fuel
  induction fuel with
  | zero =>
    intro st r _ _ _ _ hfs hfn
    cases hfz : firstNz (st.m.getD r []) with
    | none => exact absurd (hfn hfz) (by omega)
    | some v => exact absurd (hfs v hfz) (by omega)
  | succ fuel ih =>
    intro st r hlen h01 hr hLead hfs hfn
    cases hfz : firstNz (st.m.getD r []) with
    | none =>
      left
      refine ⟨st, ?_, ⟨rfl, fun _ _ => rfl, hlen, h01, fun _ hp => Or.inl hp⟩, rfl, hfz⟩
      show seedInner (fuel+1) st r = SeedOut.stop st
      unfold seedInner
      rw [hfz]
    | some i =>
      cases hld : st.leading i with
      | none =>
        right
        refine ⟨⟨st.m, Function.update st.leading i (some r), st.adds⟩, i, ?_,
          ⟨rfl, fun _ _ => rfl, hlen, h01, fun _ hp => Or.inl hp⟩, hld, rfl, hfz⟩
        show seedInner (fuel+1) st r = _
        unfold seedInner
        rw [hfz]
        simp only [hld]
      | some lr =>
        obtain ⟨hlrr, hlrlen, hlrq, hlr1⟩ := hLead i lr hld
        have hwf := row_add_wf hlen h01 hlrlen hr
        have hlen2 : (row_add st.m lr r).length = st.m.length := row_add_length ..
        have hrow_ne : ∀ j, j ≠ r → (row_add st.m lr r).getD j [] = st.m.getD j [] :=
          fun j hj => row_add_getD_ne st.m lr r j hj
        have hrow_r : (row_add st.m lr r).getD r []
            = List.zipWith (fun x y => (x + y) % 2) (st.m.getD r []) (st.m.getD lr []) :=
          row_add_getD_self st.m lr r hr
        have hmem_r : st.m.getD r [] ∈ st.m := by
          rw [List.getD_eq_getElem _ _ hr]; exact List.getElem_mem hr
        have hmem_lr : st.m.getD lr [] ∈ st.m := by
          rw [List.getD_eq_getElem _ _ hlrlen]; exact List.getElem_mem hlrlen
        have hadd := firstNz_addRow
          (by rw [hlen _ hmem_r, hlen _ hmem_lr]) (h01 _ hmem_r) (h01 _ hmem_lr) hfz hlr1
        rw [← hrow_r] at hadd
        have hiC : i < C := by
          have h := firstNz_some_lt hfz
          rwa [hlen _ hmem_r] at h
        have hfi := hfs i hfz
        have hstep : seedInner (fuel+1) st r
            = seedInner fuel ⟨row_add st.m lr r, st.leading, st.adds ++ [(lr, r)]⟩ r := by
          conv_lhs => rw [seedInner]
          rw [hfz]
          simp only [hld]
        have key := ih ⟨row_add st.m lr r, st.leading, st.adds ++ [(lr, r)]⟩ r
          hwf.1 hwf.2 (by rw [hlen2]; exact hr)
          (by
            intro i' lr' hld'
            obtain ⟨h1, h2, h3, h4⟩ := hLead i' lr' hld'
            exact ⟨h1, by rw [hlen2]; exact h2, h3, by rw [hrow_ne lr' h1]; exact h4⟩)
          (by
            intro v hv
            rcases hadd with h | ⟨i', hi', hii'⟩
            · rw [h] at hv; cases hv
            · rw [hi'] at hv
              cases hv
              omega)
          (by intro _; omega)
        have lift_evolve : ∀ st',
            RowEvolve C qubits r ⟨row_add st.m lr r, st.leading, st.adds ++ [(lr, r)]⟩ st' →
            RowEvolve C qubits r st st' := by
          intro st' hev
          obtain ⟨e1, e2, e3, e4, e5⟩ := hev
          refine ⟨by rw [e1]; exact hlen2, ?_, e3, e4, ?_⟩
          · intro j hj
            rw [e2 j hj]
            exact hrow_ne j hj
          · intro p hp
            rcases e5 p hp with hp2 | hp2
            · rcases List.mem_append.1 hp2 with hp3 | hp3
              · exact Or.inl hp3
              · rw [List.mem_singleton] at hp3
                subst hp3
                exact Or.inr ⟨hlrq, rfl⟩
            · exact Or.inr hp2
        rcases key with ⟨st', he, hev, hldeq, hzz⟩ | ⟨st', i', he, hev, hldn, hldeq, hfz'⟩
        · left
          exact ⟨st', by rw [hstep]; exact he, lift_evolve st' hev, hldeq, hzz⟩
        · right
          exact ⟨st', i', by rw [hstep]; exact he, lift_evolve st' hev, hldn, hldeq, hfz'⟩

theorem botInner_run (C qubits : Nat) : ∀ (fuel : Nat) (st : RBRSt) (r : Nat),
    (∀ row ∈ st.m, row.length = C) →
    (∀ row ∈ st.m, ∀ x ∈ row, x < 2) →
    r < st.m.length →
    qubits ≤ r →
    (∀ i lr, st.leading i = some lr → lr < st.m.length ∧ lr < qubits ∧
      firstNz (st.m.getD lr []) = some i) →
    (∀ v, firstNz (st.m.getD r []) = some v → C - v < fuel) →
    (firstNz (st.m.getD r []) = none → 0 < fuel) →
    (∃ st', botInner fuel st r = BotOut.foundRow st' ∧ RowEvolve C qubits r st st'
      ∧ st'.leading = st.leading ∧ firstNz (st'.m.getD r []) = none)
    ∨ (∃ st', botInner fuel st r = BotOut.advance st' ∧ RowEvolve C qubits r st st'
      ∧ st'.leading = st.leading) := by
  intro fuel
  induction fuel with
  | zero =>
    intro st r _ _ _ _ _ hfs hfn
    cases hfz : firstNz (st.m.getD r []) with
    | none => exact absurd (hfn hfz) (by omega)
    | some v => exact absurd (hfs v hfz) (by omega)
  | succ fuel ih =>
    intro st r hlen h01 hr hqr hLead hfs hfn
    cases hfz : firstNz (st.m.getD r []) with
    | none =>
      left
      refine ⟨st, ?_, ⟨rfl, fun _ _ => rfl, hlen, h01, fun _ hp => Or.inl hp⟩, rfl, hfz⟩
      show botInner (fuel+1) st r = BotOut.foundRow st
      unfold botInner
      rw [hfz]
    | some i =>
      cases hld : st.leading i with
      | none =>
        right
        refine ⟨st, ?_, ⟨rfl, fun _ _ => rfl, hlen, h01, fun _ hp => Or.inl hp⟩, rfl⟩
        show botInner (fuel+1) st r = BotOut.advance st
        unfold botInner
        rw [hfz]
        simp only [hld]
      | some lr =>
        obtain ⟨hlrlen, hlrq, hlr1⟩ := hLead i lr hld
        have hlrr : lr ≠ r := by omega
        have hwf := row_add_wf hlen h01 hlrlen hr
        have hlen2 : (row_add st.m lr r).length = st.m.length := row_add_length ..
        have hrow_ne : ∀ j, j ≠ r → (row_add st.m lr r).getD j [] = st.m.getD j [] :=
          fun j hj => row_add_getD_ne st.m lr r j hj
        have hrow_r : (row_add st.m lr r).getD r []
            = List.zipWith (fun x y => (x + y) % 2) (st.m.getD r []) (st.m.getD lr []) :=
          row_add_getD_self st.m lr r hr
        have hmem_r : st.m.getD r [] ∈ st.m := by
          rw [List.getD_eq_getElem _ _ hr]; exact List.getElem_mem hr
        have hmem_lr : st.m.getD lr [] ∈ st.m := by
          rw [List.getD_eq_getElem _ _ hlrlen]; exact List.getElem_mem hlrlen
        have hadd := firstNz_addRow
          (by rw [hlen _ hmem_r, hlen _ hmem_lr]) (h01 _ hmem_r) (h01 _ hmem_lr) hfz hlr1
        rw [← hrow_r] at hadd
        have hiC : i < C := by
          have h := firstNz_some_lt hfz
          rwa [hlen _ hmem_r] at h
        have hfi := hfs i hfz
        have hstep : botInner (fuel+1) st r
            = botInner fuel ⟨row_add st.m lr r, st.leading, st.adds ++ [(lr, r)]⟩ r := by
          conv_lhs => rw [botInner]
          rw [hfz]
          simp only [hld]
        have key := ih ⟨row_add st.m lr r, st.leading, st.adds ++ [(lr, r)]⟩ r
          hwf.1 hwf.2 (by rw [hlen2]; exact hr) hqr
          (by
            intro i' lr' hld'
            obtain ⟨h2, h3, h4⟩ := hLead i' lr' hld'
            exact ⟨by rw [hlen2]; exact h2, h3, by rw [hrow_ne lr' (by omega)]; exact h4⟩)
          (by
            intro v hv
            rcases hadd with h | ⟨i', hi', hii'⟩
            · rw [h] at hv; cases hv
            · rw [hi'] at hv
              cases hv
              omega)
          (by intro _; omega)
        have lift_evolve : ∀ st',
            RowEvolve C qubits r ⟨row_add st.m lr r, st.leading, st.adds ++ [(lr, r)]⟩ st' →
            RowEvolve C qubits r st st' := by
          intro st' hev
          obtain ⟨e1, e2, e3, e4, e5⟩ := hev
          refine ⟨by rw [e1]; exact hlen2, ?_, e3, e4, ?_⟩
          · intro j hj
            rw [e2 j hj]
            exact hrow_ne j hj
          · intro p hp
            rcases e5 p hp with hp2 | hp2
            · rcases List.mem_append.1 hp2 with hp3 | hp3
              · exact Or.inl hp3
              · rw [List.mem_singleton] at hp3
                subst hp3
                exact Or.inr ⟨hlrq, rfl⟩
            · exact Or.inr hp2
        rcases key with ⟨st', he, hev, hldeq, hzz⟩ | ⟨st', he, hev, hldeq⟩
        · left
          exact ⟨st', by rw [hstep]; exact he, lift_evolve st' hev, hldeq, hzz⟩
        · right
          exact ⟨st', by rw [hstep]; exact he, lift_evolve st' hev, hldeq⟩

theorem seedRows_run (C qubits : Nat) : ∀ (b a : Nat) (st : RBRSt),
    a + b = qubits →
    qubits ≤ st.m.length →
    (∀ row ∈ st.m, row.length = C) →
    (∀ row ∈ st.m, ∀ x ∈ row, x < 2) →
    (∀ i lr, st.leading i = some lr → lr < a ∧ firstNz (st.m.getD lr []) = some i) →
    (∀ p ∈ st.adds, p.1 < qubits) →
    (∃ st', seedRows C (List.range' a b) st = SeedOut.stop st'
       ∧ (∀ p ∈ st'.adds, p.1 < qubits))
    ∨ (∃ st', seedRows C (List.range' a b) st = SeedOut.next st'
       ∧ st'.m.length = st.m.length
       ∧ (∀ row ∈ st'.m, row.length = C)
       ∧ (∀ row ∈ st'.m, ∀ x ∈ row, x < 2)
       ∧ (∀ i lr, st'.leading i = some lr → lr < qubits
            ∧ firstNz (st'.m.getD lr []) = some i)
       ∧ (∀ p ∈ st'.adds, p.1 < qubits)) := by
  intro b
  induction b with
  | zero =>
    intro a st hab hq hlen h01 hLead hadds
    right
    refine ⟨st, rfl, rfl, hlen, h01, ?_, hadds⟩
    intro i lr hld
    obtain ⟨h1, h2⟩ := hLead i lr hld
    exact ⟨by omega, h2⟩
  | succ b ih =>
    intro a st hab hq hlen h01 hLead hadds
    have haq : a < qubits := by omega
    have halen : a < st.m.length := by omega
    rw [List.range'_succ]
    have hrun := seedInner_run C qubits (C+1) st a hlen h01 halen
      (by
        intro i lr hld
        obtain ⟨h1, h2⟩ := hLead i lr hld
        exact ⟨by omega, by omega, by omega, h2⟩)
      (by intro v _; omega)
      (by intro _; omega)
    rcases hrun with ⟨st', he, hev, _, _⟩ | ⟨st', i, he, hev, hldn, hldeq, hfz'⟩
    · left
      have hseq : seedRows C (a :: List.range' (a+1) b) st = SeedOut.stop st' := by
        simp only [seedRows, he]
      obtain ⟨_, _, _, _, e5⟩ := hev
      refine ⟨st', hseq, ?_⟩
      intro p hp
      rcases e5 p hp with h | h
      · exact hadds p h
      · exact h.1
    · obtain ⟨e1, e2, e3, e4, e5⟩ := hev
      have hseq : seedRows C (a :: List.range' (a+1) b) st
          = seedRows C (List.range' (a+1) b) st' := by
        simp only [seedRows, he]
      rw [hseq]
      have hLead' : ∀ i' lr, st'.leading i' = some lr → lr < a + 1
          ∧ firstNz (st'.m.getD lr []) = some i' := by
        intro i' lr hld
        rw [hldeq] at hld
        by_cases hii : i' = i
        · subst hii
          rw [Function.update_same] at hld
          cases hld
          exact ⟨by omega, hfz'⟩
        · rw [Function.update_noteq hii] at hld
          obtain ⟨h1, h2⟩ := hLead i' lr hld
          refine ⟨by omega, ?_⟩
          rw [e2 lr (by omega)]
          exact h2
      have hadds' : ∀ p ∈ st'.adds, p.1 < qubits := by
        intro p hp
        rcases e5 p hp with h | h
        · exact hadds p h
        · exact h.1
      rcases ih (a+1) st' (by omega) (by rw [e1]; exact hq) e3 e4 hLead' hadds' with
        ⟨st2, hb, hp⟩ | ⟨st2, hb, f1, f2, f3, f4, f5⟩
      · exact Or.inl ⟨st2, hb, hp⟩
      · exact Or.inr ⟨st2, hb, by rw [f1, e1], f2, f3, f4, f5⟩

theorem seedRows_zero_stop (C qubits : Nat) : ∀ (b a : Nat) (st : RBRSt),
    a + b = qubits →
    qubits ≤ st.m.length →
    (∀ row ∈ st.m, row.length = C) →
    (∀ row ∈ st.m, ∀ x ∈ row, x < 2) →
    (∀ i lr, st.leading i = some lr → lr < a ∧ firstNz (st.m.getD lr []) = some i) →
    (∃ r0, a ≤ r0 ∧ r0 < qubits ∧ firstNz (st.m.getD r0 []) = none) →
    ∃ st', seedRows C (List.range' a b) st = SeedOut.stop st' := by
  intro b
  induction b with
  | zero =>
    intro a st hab _ _ _ _ hz
    obtain ⟨r0, h1, h2, _⟩ := hz
    omega
  | succ b ih =>
    intro a st hab hq hlen h01 hLead hz
    have haq : a < qubits := by omega
    have halen : a < st.m.length := by omega
    rw [List.range'_succ]
    obtain ⟨r0, hr0a, hr0q, hr0z⟩ := hz
    by_cases hra : r0 = a
    · subst hra
      refine ⟨st, ?_⟩
      have hstop : seedInner (C+1) st r0 = SeedOut.stop st := by
        unfold seedInner
        rw [hr0z]
      simp only [seedRows, hstop]
    · have hrun := seedInner_run C qubits (C+1) st a hlen h01 halen
        (by
          intro i lr hld
          obtain ⟨h1, h2⟩ := hLead i lr hld
          exact ⟨by omega, by omega, by omega, h2⟩)
        (by intro v _; omega)
        (by intro _; omega)
      rcases hrun with ⟨st', he, _, _, _⟩ | ⟨st', i, he, hev, hldn, hldeq, hfz'⟩
      · refine ⟨st', ?_⟩
        simp only [seedRows, he]
      · obtain ⟨e1, e2, e3, e4, _⟩ := hev
        have hseq : seedRows C (a :: List.range' (a+1) b) st
            = seedRows C (List.range' (a+1) b) st' := by
          simp only [seedRows, he]
        rw [hseq]
        apply ih (a+1) st' (by omega) (by rw [e1]; exact hq) e3 e4
        · intro i' lr hld
          rw [hldeq] at hld
          by_cases hii : i' = i
          · subst hii
            rw [Function.update_same] at hld
            cases hld
            exact ⟨by omega, hfz'⟩
          · rw [Function.update_noteq hii] at hld
            obtain ⟨h1, h2⟩ := hLead i' lr hld
            refine ⟨by omega, ?_⟩
            rw [e2 lr (by omega)]
            exact h2
        · refine ⟨r0, by omega, hr0q, ?_⟩
          rw [e2 r0 hra]
          exact hr0z

theorem botRows_run (C qubits : Nat) : ∀ (b a : Nat) (st : RBRSt),
    qubits ≤ a →
    a + b ≤ st.m.length →
    (∀ row ∈ st.m, row.length = C) →
    (∀ row ∈ st.m, ∀ x ∈ row, x < 2) →
    (∀ i lr, st.leading i = some lr → lr < qubits ∧ firstNz (st.m.getD lr []) = some i) →
    (∀ p ∈ st.adds, p.1 < qubits) →
    (∃ st', botRows C (List.range' a b) st = (RBRResult.valueError, st')
       ∧ (∀ p ∈ st'.adds, p.1 < qubits))
    ∨ (∃ r st', botRows C (List.range' a b) st = (RBRResult.found r, st')
       ∧ a ≤ r ∧ r < a + b ∧ firstNz (st'.m.getD r []) = none
       ∧ (∀ p ∈ st'.adds, p.1 < qubits)) := by
  intro b
  induction b with
  | zero =>
    intro a st _ _ _ _ _ hadds
    left
    exact ⟨st, rfl, hadds⟩
  | succ b ih =>
    intro a st hqa hab hlen h01 hLead hadds
    have halen : a < st.m.length := by omega
    rw [List.range'_succ]
    have hrun := botInner_run C qubits (C+1) st a hlen h01 halen hqa
      (by
        intro i lr hld
        obtain ⟨h1, h2⟩ := hLead i lr hld
        exact ⟨by omega, h1, h2⟩)
      (by intro v _; omega)
      (by intro _; omega)
    rcases hrun with ⟨st', he, hev, _, hzz⟩ | ⟨st', he, hev, hldeq⟩
    · right
      obtain ⟨_, _, _, _, e5⟩ := hev
      refine ⟨a, st', ?_, le_rfl, by omega, hzz, ?_⟩
      · simp only [botRows, he]
      · intro p hp
        rcases e5 p hp with h | h
        · exact hadds p h
        · exact h.1
    · obtain ⟨e1, e2, e3, e4, e5⟩ := hev
      have hseq : botRows C (a :: List.range' (a+1) b) st
          = botRows C (List.range' (a+1) b) st' := by
        simp only [botRows, he]
      rw [hseq]
      have hadds' : ∀ p ∈ st'.adds, p.1 < qubits := by
        intro p hp
        rcases e5 p hp with h | h
        · exact hadds p h
        · exact h.1
      have hLead' : ∀ i lr, st'.leading i = some lr → lr < qubits
          ∧ firstNz (st'.m.getD lr []) = some i := by
        intro i lr hld
        rw [hldeq] at hld
        obtain ⟨h1, h2⟩ := hLead i lr hld
        refine ⟨h1, ?_⟩
        rw [e2 lr (by omega)]
        exact h2
      rcases ih (a+1) st' (by omega) (by rw [e1]; omega) e3 e4 hLead' hadds' with
        ⟨st'', hb, hp⟩ | ⟨r, st'', hb, hr1, hr2, hr3, hp⟩
      · exact Or.inl ⟨st'', hb, hp⟩
      · exact Or.inr ⟨r, st'', hb, by omega, by omega, hr3, hp⟩

/-- **C10** (confirmed; the GF(2) row-addition is modelled from §6's
collaborator contract).  Under well-formedness of the matrix,
`reduce_bottom_rows(m, qubits)` never exhausts the embedding's fuel, and
(1) it either returns a row index `r` with `qubits ≤ r < m.rows()` whose
row it has reduced to all-zero, or raises `ValueError`, or raises
`StopIteration`; (2) every recorded row-addition has its control among the
first `qubits` rows; (3) whenever one of the first `qubits` rows of the
input is all zero, the unguarded `next` of the seeding loop raises
`StopIteration` (a different exception from the `ValueError` that the
fallback ladder of `streaming_extract` catches). -/
theorem reduce_bottom_rows_spec (m : List (List Nat)) (qubits C : Nat)
    (hC : C = (m.headD []).length)
    (hlen : ∀ row ∈ m, row.length = C)
    (h01 : ∀ row ∈ m, ∀ x ∈ row, x < 2)
    (hq : qubits ≤ m.length) :
    ((∃ r, (reduce_bottom_rows m qubits).1 = RBRResult.found r ∧ qubits ≤ r
        ∧ r < m.length
        ∧ firstNz ((reduce_bottom_rows m qubits).2.m.getD r []) = none)
      ∨ (reduce_bottom_rows m qubits).1 = RBRResult.valueError
      ∨ (reduce_bottom_rows m qubits).1 = RBRResult.stopIteration)
    ∧ (∀ p ∈ (reduce_bottom_rows m qubits).2.adds, p.1 < qubits)
    ∧ ((∃ r0, r0 < qubits ∧ firstNz (m.getD r0 []) = none) →
        (reduce_bottom_rows m qubits).1 = RBRResult.stopIteration) := by
  have hrbr : reduce_bottom_rows m qubits
      = match seedRows C (List.range' 0 qubits) ⟨m, fun _ => none, []⟩ with
        | .next st => botRows C (List.range' qubits (m.length - qubits)) st
        | .stop st => (.stopIteration, st)
        | .nofuel st => (.fuelOut, st) := by
    simp only [reduce_bottom_rows]
    rw [← hC, ← List.range_eq_range']
  have hLead0 : ∀ i lr, (⟨m, fun _ => none, []⟩ : RBRSt).leading i = some lr →
      lr < 0 ∧ firstNz ((⟨m, fun _ => none, []⟩ : RBRSt).m.getD lr []) = some i := by
    intro i lr h
    cases h
  have hthird : (∃ r0, r0 < qubits ∧ firstNz (m.getD r0 []) = none) →
      (reduce_bottom_rows m qubits).1 = RBRResult.stopIteration := by
    rintro ⟨r0, hr0, hz⟩
    obtain ⟨st'', hstop⟩ := seedRows_zero_stop C qubits qubits 0 ⟨m, fun _ => none, []⟩
      (by omega) hq hlen h01 hLead0 ⟨r0, by omega, hr0, hz⟩
    rw [hrbr, hstop]
  have hmain : ((∃ r, (reduce_bottom_rows m qubits).1 = RBRResult.found r ∧ qubits ≤ r
        ∧ r < m.length
        ∧ firstNz ((reduce_bottom_rows m qubits).2.m.getD r []) = none)
      ∨ (reduce_bottom_rows m qubits).1 = RBRResult.valueError
      ∨ (reduce_bottom_rows m qubits).1 = RBRResult.stopIteration)
    ∧ (∀ p ∈ (reduce_bottom_rows m qubits).2.adds, p.1 < qubits) := by
    rcases seedRows_run C qubits qubits 0 ⟨m, fun _ => none, []⟩ (by omega) hq hlen h01
      hLead0 (by intro p hp; cases hp) with
      ⟨st', hs, hadds'⟩ | ⟨st', hs, f1, f2, f3, f4, f5⟩
    · rw [hrbr, hs]
      exact ⟨Or.inr (Or.inr rfl), hadds'⟩
    · have hblen : qubits + (m.length - qubits) ≤ st'.m.length := by
        rw [f1]
        show qubits + (m.length - qubits) ≤ m.length
        omega
      rcases botRows_run C qubits (m.length - qubits) qubits st' le_rfl hblen f2 f3 f4 f5
        with ⟨st'', hb, hp⟩ | ⟨r, st'', hb, h1, h2, h3, hp⟩
      · have hres : reduce_bottom_rows m qubits = (RBRResult.valueError, st'') := by
          rw [hrbr, hs]
          exact hb
        rw [hres]
        exact ⟨Or.inr (Or.inl rfl), hp⟩
      · have hres : reduce_bottom_rows m qubits = (RBRResult.found r, st'') := by
          rw [hrbr, hs]
          exact hb
        rw [hres]
        exact ⟨Or.inl ⟨r, rfl, h1, by omega, h3⟩, hp⟩
  exact ⟨hmain.1, hmain.2, hthird⟩

/-- Witness for **C10** at the concrete matrix `[[1,0],[0,1],[1,1]]` with
`qubits = 2`: the bottom row is reducible using the two seeded pivots. -/
theorem reduce_bottom_rows_spec_witness :
    ((∃ r, (reduce_bottom_rows [[1,0],[0,1],[1,1]] 2).1 = RBRResult.found r ∧ 2 ≤ r
        ∧ r < ([[1,0],[0,1],[1,1]] : List (List Nat)).length
        ∧ firstNz ((reduce_bottom_rows [[1,0],[0,1],[1,1]] 2).2.m.getD r []) = none)
      ∨ (reduce_bottom_rows [[1,0],[0,1],[1,1]] 2).1 = RBRResult.valueError
      ∨ (reduce_bottom_rows [[1,0],[0,1],[1,1]] 2).1 = RBRResult.stopIteration)
    ∧ (∀ p ∈ (reduce_bottom_rows [[1,0],[0,1],[1,1]] 2).2.adds, p.1 < 2)
    ∧ ((∃ r0, r0 < 2 ∧ firstNz (([[1,0],[0,1],[1,1]] : List (List Nat)).getD r0 []) = none) →
        (reduce_bottom_rows [[1,0],[0,1],[1,1]] 2).1 = RBRResult.stopIteration) :=
  reduce_bottom_rows_spec [[1,0],[0,1],[1,1]] 2 2 (by decide) (by decide) (by decide)
    (by decide)

/-!
## Diagram model for the frontier steps of `streaming_extract`

The main loop of `streaming_extract` reads the diagram through the live
maps `qs`, `rs`, `ty`, `phases` and through `g.neighbours` /
`g.edge_type`.  The slice of the diagram ADT these steps need is embedded
as an undirected typed edge list plus the four per-vertex maps; rows are
rationals because the code stores half-integer rows (`leftrow - 0.5`).
-/

/-- Vertex kinds: boundary, Z-node, X-node. -/
inductive VTy
  | B
  | Z
  | X
deriving DecidableEq

/-- Edge kinds: simple (plain) or Hadamard. -/
inductive ETy
  | S
  | H
deriving DecidableEq

/-- Gates that the embedded slices of `streaming_extract` emit. -/
inductive Gate
  | HAD (q : Nat)
  | ZPhase (q : Nat) (phase : ℚ)
  | XPhase (q : Nat) (phase : ℚ)
  | CZ (c t : Nat)
  | CX (c t : Nat)
  | CNOT (c t : Nat)
  | ParityPhase (phase : ℚ) (targets : List Nat)
  | PostSelect (q : Nat)
  | InitAncilla (q : Nat)
  | SWAP (a b : Nat)
deriving DecidableEq

/-- The diagram slice: undirected typed edges plus live per-vertex maps. -/
structure Graph where
  edges : List (Nat × Nat × ETy)
  qubit : Nat → Nat
  row : Nat → ℚ
  ty : Nat → VTy
  phase : Nat → ℚ

/-- Does the (undirected) edge entry `e` connect `v` and `w`? -/
def edgeMatches (v w : Nat) (e : Nat × Nat × ETy) : Bool :=
  (e.1 == v && e.2.1 == w) || (e.1 == w && e.2.1 == v)

def Graph.neighbours (g : Graph) (v : Nat) : List Nat :=
  g.edges.filterMap (fun e =>
    if e.1 = v then some e.2.1 else if e.2.1 = v then some e.1 else none)

def Graph.connected (g : Graph) (v w : Nat) : Bool :=
  g.edges.any (edgeMatches v w)

def Graph.edgeType (g : Graph) (v w : Nat) : ETy :=
  (((g.edges.find? (edgeMatches v w)).map (fun e => e.2.2)).getD ETy.S)

def Graph.setEdgeType (g : Graph) (v w : Nat) (t : ETy) : Graph :=
  { g with edges := g.edges.map (fun e => if edgeMatches v w e then (e.1, e.2.1, t) else e) }

def Graph.removeEdge (g : Graph) (v w : Nat) : Graph :=
  { g with edges := g.edges.filter (fun e => !(edgeMatches v w e)) }

def Graph.setPhase (g : Graph) (v : Nat) (p : ℚ) : Graph :=
  { g with phase := Function.update g.phase v p }

def Graph.setRow (g : Graph) (v : Nat) (r : ℚ) : Graph :=
  { g with row := Function.update g.row v r }

/-- The predecessors of a frontier vertex: its neighbours at a strictly
lower row (`[w for w in g.neighbours(v) if rs[w] < leftrow]`). -/
def predList (g : Graph) (lr : ℚ) (v : Nat) : List Nat :=
  (g.neighbours v).filter (fun w => decide (g.row w < lr))

/-- A frontier vertex is well-formed for gate absorption when it has a
unique predecessor and that predecessor shares its qubit coordinate. -/
def goodPred (g : Graph) (lr : ℚ) (v : Nat) : Prop :=
  ∃ n, predList g lr v = [n] ∧ g.qubit n = g.qubit v

/-- Single-qubit phase gate on a `Z`- or `X`-vertex. -/
def phaseGate (t : VTy) (q : Nat) (p : ℚ) : Gate :=
  if t = VTy.Z then Gate.ZPhase q p else Gate.XPhase q p

/-- Gate-absorption step of `streaming_extract` (extract.py lines 153-173):
process the frontier vertices in order.  For each vertex the two
predecessor checks (`len(neigh) != 1`, `qs[n] != q`) are made *before*
any gate for that vertex is emitted; on failure the `TypeError` aborts the
whole step.  The error value carries the gates accumulated so far — the
contents of the circuit `c` at the instant the exception is raised (the
exception itself discards `c`). -/
def absorb (lr : ℚ) : Graph → List Nat → List Gate → Except (List Gate) (Graph × List Gate)
  | g, [], acc => .ok (g, acc)
  | g, v :: vs, acc =>
    let q := g.qubit v
    let ph := g.phase v
    let t := g.ty v
    match predList g lr v with
    | [n] =>
      if g.qubit n ≠ q then .error acc
      else
        let hd := g.edgeType n v = ETy.H
        let g1 := if hd then g.setEdgeType n v ETy.S else g
        let acc1 := if hd then acc ++ [Gate.HAD q] else acc
        if t = VTy.B then absorb lr g1 vs acc1
        else if ph ≠ 0 then absorb lr (g1.setPhase v 0) vs (acc1 ++ [phaseGate t q ph])
        else absorb lr g1 vs acc1
    | _ => .error acc

theorem neighbours_setEdgeType (g : Graph) (a b : Nat) (t : ETy) (v : Nat) :
    (g.setEdgeType a b t).neighbours v = g.neighbours v := by
  show (g.edges.map _).filterMap _ = g.edges.filterMap _
  rw [List.filterMap_map]
  apply List.filterMap_congr
  intro e _
  by_cases he : edgeMatches a b e = true
  · simp [he, Function.comp]
  · simp [he, Function.comp]

theorem predList_setEdgeType (g : Graph) (a b : Nat) (t : ETy) (lr : ℚ) (v : Nat) :
    predList (g.setEdgeType a b t) lr v = predList g lr v := by
  unfold predList
  rw [neighbours_setEdgeType]
  rfl

theorem predList_setPhase (g : Graph) (a : Nat) (p : ℚ) (lr : ℚ) (v : Nat) :
    predList (g.setPhase a p) lr v = predList g lr v := rfl

theorem goodPred_setEdgeType (g : Graph) (a b : Nat) (t : ETy) (lr : ℚ) (v : Nat) :
    goodPred (g.setEdgeType a b t) lr v ↔ goodPred g lr v := by
  unfold goodPred
  rw [predList_setEdgeType]
  rfl

theorem goodPred_setPhase (g : Graph) (a : Nat) (p : ℚ) (lr : ℚ) (v : Nat) :
    goodPred (g.setPhase a p) lr v ↔ goodPred g lr v := Iff.rfl

theorem absorb_cons_eq (lr : ℚ) (g : Graph) (v : Nat) (vs : List Nat) (acc : List Gate)
    (n : Nat) (hn : predList g lr v = [n]) (hq : g.qubit n = g.qubit v) :
    ∃ g2 acc2, absorb lr g (v :: vs) acc = absorb lr g2 vs acc2
      ∧ (∀ lr' v', predList g2 lr' v' = predList g lr' v')
      ∧ g2.qubit = g.qubit := by
  simp only [absorb, hn]
  rw [if_neg (by simp [hq])]
  split_ifs with h1 h2 h3 <;>
    first
      | exact ⟨_, _, rfl, fun lr' v' => by rw [predList_setPhase, predList_setEdgeType], rfl⟩
      | exact ⟨_, _, rfl, fun lr' v' => predList_setEdgeType g n v ETy.S lr' v', rfl⟩
      | exact ⟨_, _, rfl, fun lr' v' => predList_setPhase g v 0 lr' v', rfl⟩

theorem absorb_cons_bad (lr : ℚ) (g : Graph) (v : Nat) (vs : List Nat) (acc : List Gate)
    (hbad : ¬ goodPred g lr v) : absorb lr g (v :: vs) acc = Except.error acc := by
  cases hpl : predList g lr v with
  | nil => simp only [absorb, hpl]
  | cons n rest =>
    cases rest with
    | nil =>
      have hqne : g.qubit n ≠ g.qubit v := fun he => hbad ⟨n, hpl, he⟩
      simp only [absorb, hpl]
      rw [if_pos hqne]
    | cons n2 rest2 => simp only [absorb, hpl]

theorem absorb_ok (lr : ℚ) : ∀ (left : List Nat) (g : Graph) (acc : List Gate),
    (∀ v ∈ left, goodPred g lr v) →
    ∃ g' acc', absorb lr g left acc = Except.ok (g', acc') := by
  intro left
  induction left with
  | nil => intro g acc _; exact ⟨g, acc, rfl⟩
  | cons v vs ih =>
    intro g acc hall
    obtain ⟨n, hn, hq⟩ := hall v (List.mem_cons_self v vs)
    obtain ⟨g2, acc2, he, hpres, hqres⟩ := absorb_cons_eq lr g v vs acc n hn hq
    rw [he]
    apply ih g2 acc2
    intro w hw
    obtain ⟨n', hn', hq'⟩ := hall w (List.mem_cons_of_mem _ hw)
    refine ⟨n', by rw [hpres]; exact hn', ?_⟩
    rw [hqres]
    exact hq'

theorem absorb_err (lr : ℚ) : ∀ (left : List Nat) (g : Graph) (acc : List Gate),
    (∃ v ∈ left, ¬ goodPred g lr v) →
    ∃ tr, absorb lr g left acc = Except.error tr := by
  intro left
  induction left with
  | nil => rintro g acc ⟨v, hv, -⟩; cases hv
  | cons v vs ih =>
    rintro g acc ⟨w, hw, hbad⟩
    by_cases hv : goodPred g lr v
    · obtain ⟨n, hn, hq⟩ := hv
      obtain ⟨g2, acc2, he, hpres, hqres⟩ := absorb_cons_eq lr g v vs acc n hn hq
      rw [he]
      apply ih g2 acc2
      have hwvs : w ∈ vs := by
        rcases List.mem_cons.1 hw with h | h
        · subst h
          exact absurd ⟨n, hn, hq⟩ hbad
        · exact h
      refine ⟨w, hwvs, ?_⟩
      intro ⟨n', hn', hq'⟩
      apply hbad
      refine ⟨n', by rw [← hpres]; exact hn', ?_⟩
      rw [← hqres]
      exact hq'
    · exact ⟨acc, absorb_cons_bad lr g v vs acc hv⟩

/-- **C4** (corrected).  In the gate-absorption step every frontier vertex
must have exactly one neighbour at a strictly lower row sharing its qubit
coordinate; otherwise a structural `TypeError` is raised.  The checks for
a vertex precede any gate emission *for that vertex*, so when the
offending vertex is the first one processed the failure occurs before any
gate has been added; gates already emitted for earlier frontier vertices,
however, are in the circuit at the moment the exception is raised (the
exception discards the circuit, so no gate list escapes to the caller). -/
theorem absorb_spec (g : Graph) (lr : ℚ) (left : List Nat) :
    ((∀ v ∈ left, goodPred g lr v) →
      ∃ g' acc, absorb lr g left [] = Except.ok (g', acc))
    ∧ ((∃ v ∈ left, ¬ goodPred g lr v) →
      ∃ tr, absorb lr g left [] = Except.error tr)
    ∧ (∀ v vs, left = v :: vs → ¬ goodPred g lr v →
      absorb lr g left [] = Except.error []) := by
  refine ⟨fun h => absorb_ok lr left g [] h, fun h => absorb_err lr left g [] h, ?_⟩
  intro v vs he hbad
  rw [he]
  exact absorb_cons_bad lr g v vs [] hbad

/-- A concrete frontier at row 1: vertex `0` has the single predecessor
`10` (same qubit, Hadamard edge), vertex `1` has the two predecessors
`11` and `12`. -/
def badFrontierGraph : Graph where
  edges := [(10, 0, ETy.H), (11, 1, ETy.S), (12, 1, ETy.S)]
  qubit := fun v => if v = 1 ∨ v = 11 ∨ v = 12 then 1 else 0
  row := fun v => if v < 10 then 1 else 0
  ty := fun _ => VTy.Z
  phase := fun _ => 0

theorem badFrontierGraph_not_good : ¬ goodPred badFrontierGraph 1 1 := by
  rintro ⟨n, hn, -⟩
  have hpl : predList badFrontierGraph 1 1 = [11, 12] := by rfl
  rw [hpl] at hn
  simp at hn

/-- Counterexample to **C4** as stated: in the frontier `[0, 1]` the vertex
`1` has two predecessors, yet at the moment the structural error is raised
the circuit already contains the Hadamard gate emitted for the earlier
frontier vertex `0` — the failure does not occur "before any gate has been
added to the circuit". -/
theorem absorb_counterexample :
    ¬ goodPred badFrontierGraph 1 1
    ∧ absorb 1 badFrontierGraph [0, 1] [] = Except.error [Gate.HAD 0]
    ∧ [Gate.HAD 0] ≠ ([] : List Gate) := by
  refine ⟨badFrontierGraph_not_good, by rfl, by simp⟩

/-- Witness for **C4**: with the offending vertex first in the frontier,
the failure happens with the gate trace still empty. -/
theorem absorb_spec_witness :
    ¬ goodPred badFrontierGraph 1 1
    ∧ absorb 1 badFrontierGraph [1, 0] [] = Except.error [] :=
  ⟨badFrontierGraph_not_good,
    (absorb_spec badFrontierGraph 1 [1, 0]).2.2 1 [0] rfl badFrontierGraph_not_good⟩

/-!
## Entangling gates and progress classification (extract.py lines 174-213)

The second `for v in left:` loop of `streaming_extract` interleaves, per
frontier vertex, the local entangling-gate step (C7) and the progress
classification with post-selection handling (C6); the post-selection loop
of lines 207-213 follows.  `right` is a Python set; it is embedded as a
duplicate-free list (its contents play no role in the claims).
-/

/-- Neighbours at the same row with a smaller vertex id
(`[w for w in g.neighbours(v) if rs[w]==leftrow and w<v]`). -/
def sameRowEarlier (g : Graph) (lr : ℚ) (v : Nat) : List Nat :=
  (g.neighbours v).filter (fun w => decide (g.row w = lr) && decide (w < v))

/-- Forward neighbours (`[w for w in g.neighbours(v) if rs[w]>leftrow]`). -/
def forwardList (g : Graph) (lr : ℚ) (v : Nat) : List Nat :=
  (g.neighbours v).filter (fun w => decide (lr < g.row w))

/-- The entangling gate for the same-row edge `(v, n)` (`n < v`), per the
code's table: same node-type uses a Hadamard edge and emits `CZ q2 q`
(`Z`) or `CX q2 q` (`X`); different node-types use a plain edge and emit
`CNOT q q2` when `v` is the `Z`-vertex, else `CNOT q2 q`.  `q = qs[v]`,
`q2 = qs[n]`. -/
def mkEntGate (t t2 : VTy) (q q2 : Nat) (et : ETy) : Except Unit Gate :=
  if t = t2 then
    if et ≠ ETy.H then .error ()
    else .ok (if t = VTy.Z then Gate.CZ q2 q else Gate.CX q2 q)
  else
    if et ≠ ETy.S then .error ()
    else .ok (if t = VTy.Z then Gate.CNOT q q2 else Gate.CNOT q2 q)

/-- The gate `mkEntGate` emits for the edge `(v, n)` when the combination
is valid. -/
def entGate (g : Graph) (v n : Nat) : Gate :=
  if g.ty v = g.ty n then
    (if g.ty v = VTy.Z then Gate.CZ (g.qubit n) (g.qubit v)
      else Gate.CX (g.qubit n) (g.qubit v))
  else
    (if g.ty v = VTy.Z then Gate.CNOT (g.qubit v) (g.qubit n)
      else Gate.CNOT (g.qubit n) (g.qubit v))

/-- The edge `(v, n)` has the type/edge-kind combination the code accepts:
Hadamard between same node-types, plain between different ones. -/
def validEnt (g : Graph) (v n : Nat) : Prop :=
  (g.ty v = g.ty n → g.edgeType v n = ETy.H)
  ∧ (g.ty v ≠ g.ty n → g.edgeType v n = ETy.S)

/-- The entangling inner loop for vertex `v` over its same-row earlier
neighbours: emit the table's gate or raise, and remove the edge. -/
def entangleVert (lr : ℚ) : Graph → Nat → List Nat → List Gate →
    Except Unit (Graph × List Gate)
  | g, _, [], acc => .ok (g, acc)
  | g, v, n :: ns, acc =>
    match mkEntGate (g.ty v) (g.ty n) (g.qubit v) (g.qubit n) (g.edgeType v n) with
    | .error () => .error ()
    | .ok gate => entangleVert lr (g.removeEdge v n) v ns (acc ++ [gate])

/-- State of the `for v in left:` loop of lines 174-206. -/
structure P1St where
  g : Graph
  gates : List Gate
  goodVerts : List Nat
  goodNeighs : List Nat
  postselects : List Nat
  boundary : List Nat
  rights : List Nat

/-- Set-union on the duplicate-free list model of the Python set `right`. -/
def unionL (s d : List Nat) : List Nat := s ++ d.filter (fun x => !(s.contains x))

/-- The progress classification for vertex `v` (lines 194-206): zero
forward neighbours raises `TypeError("Not circuit like")` unless
`allow_ancillae`, in which case the vertex is queued for post-selection;
one forward non-boundary neighbour is advanceable; one boundary neighbour
finishes the vertex. -/
def classifyVert (lr : ℚ) (allow : Bool) (st : P1St) (v : Nat) : Except Unit P1St :=
  let d := forwardList st.g lr v
  let st1 := { st with rights := unionL st.rights d }
  if d.length = 0 then
    if !allow then .error ()
    else .ok { st1 with postselects := st1.postselects ++ [v] }
  else if d.length = 1 then
    match d with
    | [w] =>
      if st1.g.ty w ≠ VTy.B then
        .ok { st1 with goodVerts := st1.goodVerts ++ [v],
                       goodNeighs := st1.goodNeighs ++ [w] }
      else
        .ok { st1 with boundary := st1.boundary ++ [v], rights := st1.rights.erase w }
    | _ => .ok st1
  else .ok st1

/-- The combined per-vertex loop of lines 174-206. -/
def phase1 (lr : ℚ) (allow : Bool) : List Nat → P1St → Except Unit P1St
  | [], st => .ok st
  | v :: vs, st =>
    match entangleVert lr st.g v (sameRowEarlier st.g lr v) st.gates with
    | .error () => .error ()
    | .ok (g', gates') =>
      match classifyVert lr allow { st with g := g', gates := gates' } v with
      | .error () => .error ()
      | .ok st' => phase1 lr allow vs st'

/-- The post-selection loop of lines 207-213: emit a `PostSelect` gate on
the vertex's qubit, drop the vertex from `left`, park it at row
`leftrow - 0.5`, and shrink `maxq` when the vertex occupied qubit
`maxq - 1`. -/
def phase2 (lr : ℚ) : List Nat → Graph × List Gate × List Nat × Int →
    Graph × List Gate × List Nat × Int
  | [], acc => acc
  | v :: ps, (g, gates, left, maxq) =>
    phase2 lr ps (g.setRow v (lr - 1/2),
      gates ++ [Gate.PostSelect (g.qubit v)],
      left.erase v,
      if (g.qubit v : Int) = maxq - 1 then maxq - 1 else maxq)

/-- Result of the combined frontier step. -/
structure FrontierOut where
  g : Graph
  gates : List Gate
  left : List Nat
  maxq : Int
  goodVerts : List Nat
  goodNeighs : List Nat
  boundary : List Nat
  rights : List Nat
  postselects : List Nat

/-- Embedding of extract.py lines 174-213: the entangling/classification
loop followed by the post-selection loop. -/
def processFrontier (g : Graph) (lr : ℚ) (allow : Bool) (maxq : Int)
    (left : List Nat) : Except Unit FrontierOut :=
  match phase1 lr allow left ⟨g, [], [], [], [], [], []⟩ with
  | .error () => .error ()
  | .ok st =>
    match phase2 lr st.postselects (st.g, st.gates, left, maxq) with
    | (g2, gates2, left2, maxq2) =>
      .ok ⟨g2, gates2, left2, maxq2, st.goodVerts, st.goodNeighs, st.boundary,
        st.rights, st.postselects⟩

theorem find?_filter_of_imp {α} (p keep : α → Bool)
    (hpk : ∀ e, p e = true → keep e = true) :
    ∀ l : List α, (l.filter keep).find? p = l.find? p := by
  intro l
  induction l with
  | nil => rfl
  | cons a l ih =>
    by_cases hpa : p a = true
    · rw [List.filter_cons_of_pos (hpk a hpa), List.find?_cons_of_pos _ hpa,
        List.find?_cons_of_pos _ hpa]
    · have hpa' : ¬ (p a = true) := hpa
      by_cases hka : keep a = true
      · rw [List.filter_cons_of_pos hka, List.find?_cons_of_neg _ hpa',
          List.find?_cons_of_neg _ hpa']
        exact ih
      · rw [List.filter_cons_of_neg (by simpa using hka), List.find?_cons_of_neg _ hpa']
        exact ih

theorem filter_filterMap_filter {α} (pred : Nat → Bool) (f : α → Option Nat)
    (keep : α → Bool)
    (h : ∀ e, keep e = false → ∀ u, f e = some u → pred u = false) :
    ∀ l : List α,
      ((l.filter keep).filterMap f).filter pred = (l.filterMap f).filter pred := by
  intro l
  induction l with
  | nil => rfl
  | cons a l ih =>
    by_cases hka : keep a = true
    · rw [List.filter_cons_of_pos hka, List.filterMap_cons, List.filterMap_cons]
      cases hfa : f a with
      | none => exact ih
      | some u =>
        rw [List.filter_cons, List.filter_cons, ih]
    · have hka' : keep a = false := by simpa using hka
      rw [List.filter_cons_of_neg (by simpa using hka), List.filterMap_cons]
      cases hfa : f a with
      | none => exact ih
      | some u =>
        rw [List.filter_cons, h a hka' u hfa]
        simpa using ih

theorem filterMap_filter_of_none {α β} (f : α → Option β) (keep : α → Bool)
    (h : ∀ e, keep e = false → f e = none) :
    ∀ l : List α, (l.filter keep).filterMap f = l.filterMap f := by
  intro l
  induction l with
  | nil => rfl
  | cons a l ih =>
    by_cases hka : keep a = true
    · rw [List.filter_cons_of_pos hka, List.filterMap_cons, List.filterMap_cons]
      cases f a <;> simp [ih]
    · have hka' : keep a = false := by simpa using hka
      rw [List.filter_cons_of_neg (by simpa using hka), List.filterMap_cons, h a hka', ih]

theorem edgeMatches_elim {v w : Nat} {e : Nat × Nat × ETy}
    (h : edgeMatches v w e = true) :
    (e.1 = v ∧ e.2.1 = w) ∨ (e.1 = w ∧ e.2.1 = v) := by
  simpa [edgeMatches] using h

/-- The unordered pair `{x,y}` equals the unordered pair `{v,n}`. -/
def pairEq (x y v n : Nat) : Prop := (x = v ∧ y = n) ∨ (x = n ∧ y = v)

theorem edgeMatches_disjoint {x y v n : Nat} (h : ¬ pairEq x y v n)
    {e : Nat × Nat × ETy} (hm : edgeMatches v n e = true) :
    edgeMatches x y e = false := by
  rcases Bool.eq_false_or_eq_true (edgeMatches x y e) with h2 | h2
  · exfalso
    apply h
    rcases edgeMatches_elim hm with ⟨a1, a2⟩ | ⟨a1, a2⟩ <;>
      rcases edgeMatches_elim h2 with ⟨b1, b2⟩ | ⟨b1, b2⟩ <;>
      unfold pairEq <;> omega
  · exact h2

theorem connected_removeEdge_self (g : Graph) (v n : Nat) :
    (g.removeEdge v n).connected v n = false := by
  apply List.any_eq_false.2
  intro e he
  have := List.of_mem_filter he
  simp at this
  simp [this]

theorem connected_removeEdge_imp {g : Graph} {x y a b : Nat}
    (h : (g.removeEdge x y).connected a b = true) : g.connected a b = true := by
  obtain ⟨e, he, hm⟩ := List.any_eq_true.1 h
  exact List.any_eq_true.2 ⟨e, List.mem_of_mem_filter he, hm⟩

theorem connected_removeEdge_false {g : Graph} {x y a b : Nat}
    (h : g.connected a b = false) : (g.removeEdge x y).connected a b = false := by
  rcases Bool.eq_false_or_eq_true ((g.removeEdge x y).connected a b) with h2 | h2
  · rw [connected_removeEdge_imp h2] at h
    cases h
  · exact h2

theorem edgeType_removeEdge_other {x y v n : Nat} (g : Graph) (h : ¬ pairEq x y v n) :
    (g.removeEdge x y).edgeType v n = g.edgeType v n := by
  unfold Graph.edgeType Graph.removeEdge
  rw [find?_filter_of_imp _ _ (fun e he => by
    rw [edgeMatches_disjoint h he]
    rfl)]

theorem connected_removeEdge_other {x y v n : Nat} (g : Graph) (h : ¬ pairEq x y v n) :
    (g.removeEdge x y).connected v n = g.connected v n := by
  unfold Graph.connected Graph.removeEdge
  show (g.edges.filter _).any _ = _
  rcases hb : g.edges.any (edgeMatches v n) with _ | _
  · apply List.any_eq_false.2
    intro e he
    exact List.any_eq_false.1 hb e (List.mem_of_mem_filter he)
  · obtain ⟨e, he, hm⟩ := List.any_eq_true.1 hb
    apply List.any_eq_true.2
    refine ⟨e, List.mem_filter.2 ⟨he, ?_⟩, hm⟩
    rw [edgeMatches_disjoint h hm]
    rfl

theorem neighbours_removeEdge_of_ne {g : Graph} {x y w : Nat} (hwx : w ≠ x) (hwy : w ≠ y) :
    (g.removeEdge x y).neighbours w = g.neighbours w := by
  unfold Graph.neighbours Graph.removeEdge
  apply filterMap_filter_of_none
  intro e he
  have hm : edgeMatches x y e = true := by simpa using he
  rcases edgeMatches_elim hm with ⟨a1, a2⟩ | ⟨a1, a2⟩ <;>
    · rw [if_neg (by omega), if_neg (by omega)]

theorem forwardList_removeEdge (g : Graph) (lr : ℚ) {x y : Nat} (w : Nat)
    (hx : g.row x = lr) (hy : g.row y = lr) :
    forwardList (g.removeEdge x y) lr w = forwardList g lr w := by
  unfold forwardList Graph.neighbours Graph.removeEdge
  apply filter_filterMap_filter
  intro e he u hu
  have hm : edgeMatches x y e = true := by simpa using he
  have hrow : g.row u = lr := by
    rcases edgeMatches_elim hm with ⟨a1, a2⟩ | ⟨a1, a2⟩ <;>
      · split_ifs at hu with h1 h2
        · cases hu
          subst a2
          first | exact hy | exact hx
        · cases hu
          subst a1
          first | exact hx | exact hy
  simp [hrow]

theorem sameRowEarlier_removeEdge (g : Graph) (lr : ℚ) {v n : Nat} (w : Nat)
    (hvn : n < v) (hw : w ≠ v) :
    sameRowEarlier (g.removeEdge v n) lr w = sameRowEarlier g lr w := by
  unfold sameRowEarlier Graph.neighbours Graph.removeEdge
  apply filter_filterMap_filter
  intro e he u hu
  have hm : edgeMatches v n e = true := by simpa using he
  have huv : u = v ∧ w = n := by
    rcases edgeMatches_elim hm with ⟨a1, a2⟩ | ⟨a1, a2⟩ <;>
      · split_ifs at hu with h1 h2
        · cases hu; omega
        · cases hu; omega
  obtain ⟨huv1, hwn⟩ := huv
  subst huv1
  have : decide (u < w) = false := by
    subst hwn
    simp
    omega
  simp [this]

theorem mkEntGate_ok {g : Graph} {v n : Nat} (h : validEnt g v n) :
    mkEntGate (g.ty v) (g.ty n) (g.qubit v) (g.qubit n) (g.edgeType v n)
      = Except.ok (entGate g v n) := by
  unfold mkEntGate entGate
  by_cases ht : g.ty v = g.ty n
  · rw [if_pos ht, if_pos ht, if_neg (by rw [h.1 ht]; simp)]
  · rw [if_neg ht, if_neg ht, if_neg (by rw [h.2 ht]; simp)]

theorem mkEntGate_err {g : Graph} {v n : Nat} (h : ¬ validEnt g v n) :
    mkEntGate (g.ty v) (g.ty n) (g.qubit v) (g.qubit n) (g.edgeType v n)
      = Except.error () := by
  unfold mkEntGate
  by_cases ht : g.ty v = g.ty n
  · rw [if_pos ht]
    have hne : g.edgeType v n ≠ ETy.H := by
      intro he
      exact h ⟨fun _ => he, fun hne2 => absurd ht hne2⟩
    rw [if_pos hne]
  · rw [if_neg ht]
    have hne : g.edgeType v n ≠ ETy.S := by
      intro he
      exact h ⟨fun h2 => absurd h2 ht, fun _ => he⟩
    rw [if_pos hne]

theorem validEnt_removeEdge {g : Graph} {x y v n : Nat} (h : ¬ pairEq x y v n) :
    validEnt (g.removeEdge x y) v n ↔ validEnt g v n := by
  unfold validEnt
  rw [edgeType_removeEdge_other g h]
  exact Iff.rfl

theorem not_pairEq_of_tail {v n n' : Nat} (hne : n ≠ n') (hlt : n' < v) :
    ¬ pairEq v n v n' := by
  rintro (⟨-, h2⟩ | ⟨h1, -⟩)
  · exact hne h2
  · omega

theorem entangle_fold (lr : ℚ) (v : Nat) : ∀ (ns : List Nat) (g : Graph) (acc : List Gate),
    ns.Nodup →
    (∀ n ∈ ns, n < v) →
    (∀ n ∈ ns, validEnt g v n) →
    g.row v = lr →
    (∀ n ∈ ns, g.row n = lr) →
    ∃ g', entangleVert lr g v ns acc = Except.ok (g', acc ++ ns.map (entGate g v))
      ∧ (∀ n ∈ ns, g'.connected v n = false)
      ∧ g'.row = g.row ∧ g'.qubit = g.qubit ∧ g'.ty = g.ty ∧ g'.phase = g.phase
      ∧ (∀ a b, g.connected a b = false → g'.connected a b = false)
      ∧ (∀ w, forwardList g' lr w = forwardList g lr w)
      ∧ (∀ w, w ≠ v → sameRowEarlier g' lr w = sameRowEarlier g lr w)
      ∧ (∀ a b, (∀ n ∈ ns, ¬ pairEq v n a b) →
          g'.edgeType a b = g.edgeType a b ∧ g'.connected a b = g.connected a b) := by
  intro ns
  induction ns with
  | nil =>
    intro g acc _ _ _ _ _
    exact ⟨g, by simp [entangleVert], by simp, rfl, rfl, rfl, rfl,
      fun _ _ h => h, fun _ => rfl, fun _ _ => rfl, fun _ _ _ => ⟨rfl, rfl⟩⟩
  | cons n ns ih =>
    intro g acc hnd hlt hval hrowv hrows
    have hvn : validEnt g v n := hval n (List.mem_cons_self n ns)
    have hnv : n < v := hlt n (List.mem_cons_self n ns)
    have hstep : entangleVert lr g v (n :: ns) acc
        = entangleVert lr (g.removeEdge v n) v ns (acc ++ [entGate g v n]) := by
      simp only [entangleVert, mkEntGate_ok hvn]
    rcases List.nodup_cons.1 hnd with ⟨hnmem, hnd'⟩
    have hdisj : ∀ n' ∈ ns, ¬ pairEq v n v n' := fun n' hn' =>
      not_pairEq_of_tail (fun he => hnmem (by rw [he]; exact hn'))
        (hlt n' (List.mem_cons_of_mem _ hn'))
    obtain ⟨g', he, c2, c3a, c3b, c3c, c3d, c4, c5, c6, c7⟩ :=
      ih (g.removeEdge v n) (acc ++ [entGate g v n]) hnd'
        (fun n' hn' => hlt n' (List.mem_cons_of_mem _ hn'))
        (fun n' hn' => (validEnt_removeEdge (hdisj n' hn')).2 (hval n' (List.mem_cons_of_mem _ hn')))
        hrowv
        (fun n' hn' => hrows n' (List.mem_cons_of_mem _ hn'))
    refine ⟨g', ?_, ?_, c3a, c3b, c3c, c3d, ?_, ?_, ?_, ?_⟩
    · rw [hstep, he]
      have hmapeq : ns.map (entGate (g.removeEdge v n) v) = ns.map (entGate g v) := rfl
      rw [hmapeq]
      simp
    · intro n' hn'
      rcases List.mem_cons.1 hn' with h | h
      · subst h
        exact c4 v n' (connected_removeEdge_self g v n')
      · exact c2 n' h
    · intro a b hab
      exact c4 a b (connected_removeEdge_false hab)
    · intro w
      rw [c5 w, forwardList_removeEdge g lr w hrowv (hrows n (List.mem_cons_self n ns))]
    · intro w hw
      rw [c6 w hw, sameRowEarlier_removeEdge g lr w hnv hw]
    · intro a b hab
      obtain ⟨d1, d2⟩ := c7 a b (fun n' hn' => hab n' (List.mem_cons_of_mem _ hn'))
      have habn := hab n (List.mem_cons_self n ns)
      exact ⟨by rw [d1, edgeType_removeEdge_other g habn],
        by rw [d2, connected_removeEdge_other g habn]⟩

theorem entangle_fold_err (lr : ℚ) (v : Nat) : ∀ (ns : List Nat) (g : Graph) (acc : List Gate),
    ns.Nodup →
    (∀ n ∈ ns, n < v) →
    (∃ n ∈ ns, ¬ validEnt g v n) →
    entangleVert lr g v ns acc = Except.error () := by
  intro ns
  induction ns with
  | nil => rintro g acc _ _ ⟨n, hn, -⟩; cases hn
  | cons n ns ih =>
    rintro g acc hnd hlt ⟨w, hw, hbad⟩
    by_cases hv : validEnt g v n
    · have hstep : entangleVert lr g v (n :: ns) acc
          = entangleVert lr (g.removeEdge v n) v ns (acc ++ [entGate g v n]) := by
        simp only [entangleVert, mkEntGate_ok hv]
      rw [hstep]
      rcases List.nodup_cons.1 hnd with ⟨hnmem, hnd'⟩
      have hwns : w ∈ ns := by
        rcases List.mem_cons.1 hw with h | h
        · subst h; exact absurd hv hbad
        · exact h
      apply ih (g.removeEdge v n) _ hnd'
        (fun n' hn' => hlt n' (List.mem_cons_of_mem _ hn'))
      refine ⟨w, hwns, ?_⟩
      rw [validEnt_removeEdge (not_pairEq_of_tail (fun he => hnmem (by rw [he]; exact hwns))
        (hlt w (List.mem_cons_of_mem _ hwns)))]
      exact hbad
    · simp only [entangleVert, mkEntGate_err hv]

theorem sameRowEarlier_mem {g : Graph} {lr : ℚ} {v n : Nat}
    (h : n ∈ sameRowEarlier g lr v) : n < v ∧ g.row n = lr := by
  have h2 := List.of_mem_filter h
  simp at h2
  exact ⟨h2.2, h2.1⟩

theorem classify_err {lr : ℚ} {st : P1St} {v : Nat}
    (hz : (forwardList st.g lr v).length = 0) :
    classifyVert lr false st v = Except.error () := by
  simp only [classifyVert]
  rw [if_pos hz]
  rfl

theorem classify_zero {lr : ℚ} {st : P1St} {v : Nat}
    (hz : (forwardList st.g lr v).length = 0) :
    ∃ st', classifyVert lr true st v = Except.ok st' ∧ st'.g = st.g
      ∧ st'.gates = st.gates ∧ st'.postselects = st.postselects ++ [v] := by
  refine ⟨{ st with
              rights := unionL st.rights (forwardList st.g lr v),
              postselects := st.postselects ++ [v] }, ?_, rfl, rfl, rfl⟩
  simp only [classifyVert]
  rw [if_pos hz]
  rfl

theorem classify_pos {lr : ℚ} (allow : Bool) {st : P1St} {v : Nat}
    (hz : (forwardList st.g lr v).length ≠ 0) :
    ∃ st', classifyVert lr allow st v = Except.ok st' ∧ st'.g = st.g
      ∧ st'.gates = st.gates ∧ st'.postselects = st.postselects := by
  cases hd : forwardList st.g lr v with
  | nil => exact absurd (by rw [hd]; rfl) hz
  | cons w rest =>
    cases rest with
    | nil =>
      by_cases hty : st.g.ty w ≠ VTy.B
      · refine ⟨{ st with
                    rights := unionL st.rights [w],
                    goodVerts := st.goodVerts ++ [v],
                    goodNeighs := st.goodNeighs ++ [w] }, ?_, rfl, rfl, rfl⟩
        simp only [classifyVert]
        rw [hd]
        simp [hty]
      · refine ⟨{ st with
                    rights := (unionL st.rights [w]).erase w,
                    boundary := st.boundary ++ [v] }, ?_, rfl, rfl, rfl⟩
        simp only [classifyVert]
        rw [hd]
        simp [hty]
    | cons w2 rest2 =>
      refine ⟨{ st with
                  rights := unionL st.rights (w :: w2 :: rest2) }, ?_, rfl, rfl, rfl⟩
      simp only [classifyVert]
      rw [hd]
      simp

theorem phase1_skip (lr : ℚ) (allow : Bool) : ∀ (vs : List Nat) (st : P1St),
    (∀ u ∈ vs, sameRowEarlier st.g lr u = []) →
    (∀ u ∈ vs, (forwardList st.g lr u).length ≠ 0) →
    ∃ st', phase1 lr allow vs st = Except.ok st' ∧ st'.g = st.g
      ∧ st'.gates = st.gates ∧ st'.postselects = st.postselects := by
  intro vs
  induction vs with
  | nil => intro st _ _; exact ⟨st, rfl, rfl, rfl, rfl⟩
  | cons v vs ih =>
    intro st hsre hfwd
    obtain ⟨st2, hc, hg2, hgate2, hp2⟩ :=
      @classify_pos lr allow ({ st with g := st.g, gates := st.gates }) v
        (hfwd v (List.mem_cons_self v vs))
    have hstep : phase1 lr allow (v :: vs) st = phase1 lr allow vs st2 := by
      simp only [phase1, hsre v (List.mem_cons_self v vs), entangleVert, hc]
    obtain ⟨st3, h3, hg3, hgate3, hp3⟩ := ih st2
      (fun u hu => by rw [hg2]; exact hsre u (List.mem_cons_of_mem _ hu))
      (fun u hu => by rw [hg2]; exact hfwd u (List.mem_cons_of_mem _ hu))
    exact ⟨st3, by rw [hstep]; exact h3, by rw [hg3, hg2],
      by rw [hgate3, hgate2], by rw [hp3, hp2]⟩

theorem phase1_err (lr : ℚ) : ∀ (vs : List Nat) (st : P1St),
    (∀ u ∈ vs, sameRowEarlier st.g lr u = []) →
    (∃ u ∈ vs, (forwardList st.g lr u).length = 0) →
    phase1 lr false vs st = Except.error () := by
  intro vs
  induction vs with
  | nil => rintro st _ ⟨u, hu, -⟩; cases hu
  | cons v vs ih =>
    rintro st hsre ⟨u, hu, hz⟩
    by_cases hv : (forwardList st.g lr v).length = 0
    · have hcerr := @classify_err lr ({ st with g := st.g, gates := st.gates }) v hv
      simp only [phase1, hsre v (List.mem_cons_self v vs), entangleVert, hcerr]
    · obtain ⟨st2, hc, hg2, -, -⟩ :=
        @classify_pos lr false ({ st with g := st.g, gates := st.gates }) v hv
      have hstep : phase1 lr false (v :: vs) st = phase1 lr false vs st2 := by
        simp only [phase1, hsre v (List.mem_cons_self v vs), entangleVert, hc]
      rw [hstep]
      have huvs : u ∈ vs := by
        rcases List.mem_cons.1 hu with h | h
        · subst h; exact absurd hz hv
        · exact h
      exact ih st2 (fun w hw => by rw [hg2]; exact hsre w (List.mem_cons_of_mem _ hw))
        ⟨u, huvs, by rw [hg2]; exact hz⟩

theorem phase1_onepost (lr : ℚ) : ∀ (vs : List Nat) (st : P1St) (v : Nat),
    v ∈ vs → vs.Nodup →
    (∀ u ∈ vs, sameRowEarlier st.g lr u = []) →
    (∀ u ∈ vs, u ≠ v → (forwardList st.g lr u).length ≠ 0) →
    (forwardList st.g lr v).length = 0 →
    ∃ st', phase1 lr true vs st = Except.ok st' ∧ st'.g = st.g
      ∧ st'.gates = st.gates ∧ st'.postselects = st.postselects ++ [v] := by
  intro vs
  induction vs with
  | nil => intro st v hv; cases hv
  | cons u vs ih =>
    intro st v hv hnd hsre hothers hz
    rcases List.nodup_cons.1 hnd with ⟨humem, hnd'⟩
    by_cases huv : u = v
    · subst huv
      obtain ⟨st2, hc, hg2, hgate2, hp2⟩ :=
        @classify_zero lr ({ st with g := st.g, gates := st.gates }) u hz
      have hstep : phase1 lr true (u :: vs) st = phase1 lr true vs st2 := by
        simp only [phase1, hsre u (List.mem_cons_self u vs), entangleVert, hc]
      obtain ⟨st3, h3, hg3, hgate3, hp3⟩ := phase1_skip lr true vs st2
        (fun w hw => by rw [hg2]; exact hsre w (List.mem_cons_of_mem _ hw))
        (fun w hw => by
          rw [hg2]
          exact hothers w (List.mem_cons_of_mem _ hw) (fun he => humem (he ▸ hw)))
      exact ⟨st3, by rw [hstep]; exact h3, by rw [hg3, hg2],
        by rw [hgate3, hgate2], by rw [hp3, hp2]⟩
    · have hvmem : v ∈ vs := by
        rcases List.mem_cons.1 hv with h | h
        · exact absurd h.symm huv
        · exact h
      obtain ⟨st2, hc, hg2, hgate2, hp2⟩ :=
        @classify_pos lr true ({ st with g := st.g, gates := st.gates }) u
          (hothers u (List.mem_cons_self u vs) huv)
      have hstep : phase1 lr true (u :: vs) st = phase1 lr true vs st2 := by
        simp only [phase1, hsre u (List.mem_cons_self u vs), entangleVert, hc]
      obtain ⟨st3, h3, hg3, hgate3, hp3⟩ := ih st2 v hvmem hnd'
        (fun w hw => by rw [hg2]; exact hsre w (List.mem_cons_of_mem _ hw))
        (fun w hw hwv => by rw [hg2]; exact hothers w (List.mem_cons_of_mem _ hw) hwv)
        (by rw [hg2]; exact hz)
      exact ⟨st3, by rw [hstep]; exact h3, by rw [hg3, hg2],
        by rw [hgate3, hgate2], by rw [hp3, hp2]⟩


/-- **C6**: a frontier vertex `v` with zero forward neighbours makes the
frontier step fail (`TypeError("Not circuit like")`) when `allow_ancillae`
is off; with `allow_ancillae` on, the step succeeds and emits exactly one
post-selection gate, on `v`'s qubit, removes `v` from `left`, shrinks the
tracked qubit bound `maxq` exactly when `v` occupied qubit `maxq - 1`, and
parks `v` at row `leftrow - 1/2`.  The side hypotheses isolate the claim's
scenario: no same-row frontier edges and `v` the only stalled vertex. -/
theorem zero_forward_spec (g : Graph) (lr : ℚ) (maxq : Int) (left : List Nat) (v : Nat)
    (hnd : left.Nodup) (hmem : v ∈ left)
    (hsre : ∀ u ∈ left, sameRowEarlier g lr u = [])
    (hothers : ∀ u ∈ left, u ≠ v → (forwardList g lr u).length ≠ 0)
    (hv : (forwardList g lr v).length = 0) :
    processFrontier g lr false maxq left = Except.error ()
    ∧ ∃ out, processFrontier g lr true maxq left = Except.ok out
        ∧ out.gates = [Gate.PostSelect (g.qubit v)]
        ∧ out.left = left.erase v
        ∧ out.maxq = (if (g.qubit v : Int) = maxq - 1 then maxq - 1 else maxq)
        ∧ out.g = g.setRow v (lr - 1/2) := by
  constructor
  · have herr := phase1_err lr left ⟨g, [], [], [], [], [], []⟩ hsre ⟨v, hmem, hv⟩
    simp only [processFrontier, herr]
  · obtain ⟨st, hok, hg, hgates, hposts⟩ :=
      phase1_onepost lr left ⟨g, [], [], [], [], [], []⟩ v hmem hnd hsre hothers hv
    have hpf : processFrontier g lr true maxq left
        = Except.ok ⟨g.setRow v (lr - 1/2), [Gate.PostSelect (g.qubit v)],
            left.erase v,
            (if (g.qubit v : Int) = maxq - 1 then maxq - 1 else maxq),
            st.goodVerts, st.goodNeighs, st.boundary, st.rights, st.postselects⟩ := by
      simp only [processFrontier, hok, hposts, hg, hgates, phase2, List.nil_append]
    exact ⟨_, hpf, rfl, rfl, rfl, rfl⟩

/-- A diagram whose frontier `[0, 1]` sits at row `1` with vertex `0`
advanceable (forward neighbour `2` at row `2`) and vertex `1` stalled
(no forward neighbour); qubits are the vertex ids. -/
def postselectGraph : Graph where
  edges := [(0, 2, ETy.S)]
  qubit := fun n => n
  row := fun n => if n = 2 then 2 else 1
  ty := fun _ => VTy.Z
  phase := fun _ => 0

/-- Witness for **C6** on `postselectGraph`: without ancillae the step
raises; with ancillae it emits `PostSelect 1`, drops vertex `1` from the
frontier, and shrinks `maxq` from `2` to `1`. -/
theorem zero_forward_spec_witness :
    processFrontier postselectGraph 1 false 2 [0, 1] = Except.error ()
    ∧ ∃ out, processFrontier postselectGraph 1 true 2 [0, 1] = Except.ok out
        ∧ out.gates = [Gate.PostSelect (postselectGraph.qubit 1)]
        ∧ out.left = ([0, 1] : List Nat).erase 1
        ∧ out.maxq = (if (postselectGraph.qubit 1 : Int) = 2 - 1 then 2 - 1 else 2)
        ∧ out.g = postselectGraph.setRow 1 (1 - 1/2) :=
  zero_forward_spec postselectGraph 1 2 [0, 1] 1 (by decide) (by decide)
    (by decide) (by decide) (by decide)

/-- **C7**: over same-row earlier neighbours `ns` of a frontier vertex `v`
(all strictly below `v`, all at the current row), the entangling loop
succeeds exactly when every edge has the accepted type/edge-kind
combination — Hadamard between equal node-types, plain between different
ones — in which case it appends, per edge, the table's gate (`CZ`/`CX` on
equal types, direction-resolved `CNOT` on different types) and removes the
edge, leaving rows, qubits, types and phases untouched; one invalid
combination raises the structural error. -/
theorem entangling_spec (lr : ℚ) (g : Graph) (v : Nat) (ns : List Nat) (acc : List Gate)
    (hnd : ns.Nodup) (hlt : ∀ n ∈ ns, n < v)
    (hrowv : g.row v = lr) (hrows : ∀ n ∈ ns, g.row n = lr) :
    ((∀ n ∈ ns, validEnt g v n) →
      ∃ g', entangleVert lr g v ns acc = Except.ok (g', acc ++ ns.map (entGate g v))
        ∧ (∀ n ∈ ns, g'.connected v n = false)
        ∧ g'.row = g.row ∧ g'.qubit = g.qubit ∧ g'.ty = g.ty ∧ g'.phase = g.phase)
    ∧ ((∃ n ∈ ns, ¬ validEnt g v n) → entangleVert lr g v ns acc = Except.error ())
    ∧ (∀ n, validEnt g v n ↔
        ((g.ty v = g.ty n → g.edgeType v n = ETy.H)
          ∧ (g.ty v ≠ g.ty n → g.edgeType v n = ETy.S)))
    ∧ (∀ n, g.ty v = g.ty n →
        entGate g v n = (if g.ty v = VTy.Z then Gate.CZ (g.qubit n) (g.qubit v)
          else Gate.CX (g.qubit n) (g.qubit v)))
    ∧ (∀ n, g.ty v ≠ g.ty n →
        entGate g v n = (if g.ty v = VTy.Z then Gate.CNOT (g.qubit v) (g.qubit n)
          else Gate.CNOT (g.qubit n) (g.qubit v))) := by
  refine ⟨?_, ?_, fun n => Iff.rfl, ?_, ?_⟩
  · intro hval
    obtain ⟨g', he, c2, c3a, c3b, c3c, c3d, -, -, -, -⟩ :=
      entangle_fold lr v ns g acc hnd hlt hval hrowv hrows
    exact ⟨g', he, c2, c3a, c3b, c3c, c3d⟩
  · intro hbad
    exact entangle_fold_err lr v ns g acc hnd hlt hbad
  · intro n ht
    simp only [entGate]
    rw [if_pos ht]
  · intro n ht
    simp only [entGate]
    rw [if_neg ht]

/-- Two same-type frontier vertices `0` and `1` at row `1` joined by a
Hadamard edge; qubits are the vertex ids. -/
def entangleGraph : Graph where
  edges := [(1, 0, ETy.H)]
  qubit := fun n => n
  row := fun _ => 1
  ty := fun _ => VTy.Z
  phase := fun _ => 0

/-- Witness for **C7** on `entangleGraph` with `v = 1` and the single
same-row earlier neighbour `0`. -/
theorem entangling_spec_witness :
    ((∀ n ∈ ([0] : List Nat), validEnt entangleGraph 1 n) →
      ∃ g', entangleVert 1 entangleGraph 1 [0] []
          = Except.ok (g', [] ++ ([0] : List Nat).map (entGate entangleGraph 1))
        ∧ (∀ n ∈ ([0] : List Nat), g'.connected 1 n = false)
        ∧ g'.row = entangleGraph.row ∧ g'.qubit = entangleGraph.qubit
        ∧ g'.ty = entangleGraph.ty ∧ g'.phase = entangleGraph.phase)
    ∧ ((∃ n ∈ ([0] : List Nat), ¬ validEnt entangleGraph 1 n) →
        entangleVert 1 entangleGraph 1 [0] [] = Except.error ())
    ∧ (∀ n, validEnt entangleGraph 1 n ↔
        ((entangleGraph.ty 1 = entangleGraph.ty n → entangleGraph.edgeType 1 n = ETy.H)
          ∧ (entangleGraph.ty 1 ≠ entangleGraph.ty n → entangleGraph.edgeType 1 n = ETy.S)))
    ∧ (∀ n, entangleGraph.ty 1 = entangleGraph.ty n →
        entGate entangleGraph 1 n
          = (if entangleGraph.ty 1 = VTy.Z then Gate.CZ (entangleGraph.qubit n) (entangleGraph.qubit 1)
            else Gate.CX (entangleGraph.qubit n) (entangleGraph.qubit 1)))
    ∧ (∀ n, entangleGraph.ty 1 ≠ entangleGraph.ty n →
        entGate entangleGraph 1 n
          = (if entangleGraph.ty 1 = VTy.Z then Gate.CNOT (entangleGraph.qubit 1) (entangleGraph.qubit n)
            else Gate.CNOT (entangleGraph.qubit n) (entangleGraph.qubit 1))) :=
  entangling_spec 1 entangleGraph 1 [0] [] (by decide) (by decide) (by decide) (by decide)


/-!
## Phase-gadget anchor phases (extract.py lines 222-227 and 461-462)

Two code paths resolve a phase gadget.  The direct extraction inside the
main loop (lines 222-227) checks the gadget node's own phase (`nphase`)
against `(0, 1)` and raises on a non-Pauli value before emitting the
`ParityPhase` gate; `handle_phase_gadget` (lines 461-462) negates the
carried phase whenever `g.phase(gadget) != 0`, with no Pauli check and no
error path.
-/

/-- Lines 222-227: `nphase` is the gadget node's phase, `phase` the phase
carried by `special_nodes[n]`; a non-Pauli `nphase` raises
`"Can't parse ParityPhase with non-Pauli Phase"`, else the `ParityPhase`
gate is emitted with the sign `(-1 if nphase else 1)`. -/
def gadgetDirectGate (nphase phase : ℚ) (targets : List Nat) : Except Unit Gate :=
  if ¬ (nphase = 0 ∨ nphase = 1) then .error ()
  else .ok (Gate.ParityPhase (phase * (if nphase ≠ 0 then -1 else 1)) targets)

/-- Lines 461-462: `phase = -1*phase if g.phase(gadget) != 0 else phase` —
the resolver's phase preparation, total in the anchor phase. -/
def handleGadgetPhase (ctrlPhase ownPhase : ℚ) : ℚ :=
  if ctrlPhase ≠ 0 then -1 * ownPhase else ownPhase

/-- Counterexample to **C3** as stated: with the controlling phase `1/2`
(not a Pauli value) the resolver path `handle_phase_gadget` does not fail —
it silently negates the carried phase `1/4` — while the main-loop direct
path does raise on the same phase. -/
theorem gadget_phase_counterexample :
    ¬ ((1/2 : ℚ) = 0 ∨ (1/2 : ℚ) = 1)
    ∧ handleGadgetPhase (1/2) (1/4) = -(1/4)
    ∧ gadgetDirectGate (1/2) (1/4) [0] = Except.error () := by
  refine ⟨by norm_num, ?_, ?_⟩
  · simp only [handleGadgetPhase]
    norm_num
  · simp only [gadgetDirectGate]
    norm_num

/-- **C3**, amended: the main-loop direct extraction raises on a non-Pauli
gadget phase and otherwise negates the carried phase exactly when the
gadget phase is the half-turn `1`; `handle_phase_gadget` negates the
carried phase whenever the anchor phase is nonzero but performs no Pauli
check and has no failure path. -/
theorem gadget_phase_spec (nphase phase : ℚ) (targets : List Nat) :
    (¬ (nphase = 0 ∨ nphase = 1) →
      gadgetDirectGate nphase phase targets = Except.error ())
    ∧ (nphase = 1 →
      gadgetDirectGate nphase phase targets
        = Except.ok (Gate.ParityPhase (-phase) targets))
    ∧ (nphase = 0 →
      gadgetDirectGate nphase phase targets
        = Except.ok (Gate.ParityPhase phase targets))
    ∧ (nphase ≠ 0 → handleGadgetPhase nphase phase = -phase)
    ∧ (nphase = 0 → handleGadgetPhase nphase phase = phase) := by
  refine ⟨?_, ?_, ?_, ?_, ?_⟩
  · intro h
    simp only [gadgetDirectGate]
    rw [if_pos h]
  · intro h
    subst h
    simp only [gadgetDirectGate]
    rw [if_neg (by norm_num)]
    norm_num
  · intro h
    subst h
    simp only [gadgetDirectGate]
    rw [if_neg (by norm_num)]
    norm_num
  · intro h
    simp only [handleGadgetPhase]
    rw [if_pos h]
    ring
  · intro h
    subst h
    simp only [handleGadgetPhase]
    norm_num

/-- Witness for **C3** at gadget phase `1` and carried phase `1/4`: the
direct path emits the negated `ParityPhase`, and the resolver path also
negates. -/
theorem gadget_phase_spec_witness :
    gadgetDirectGate 1 (1/4) [0] = Except.ok (Gate.ParityPhase (-(1/4)) [0])
    ∧ handleGadgetPhase 1 (1/4) = -(1/4) :=
  ⟨(gadget_phase_spec 1 (1/4) [0]).2.1 rfl,
    (gadget_phase_spec 1 (1/4) [0]).2.2.2.1 (by norm_num)⟩


/-!
## Phase-gadget migration and the non-unitarity check (extract.py lines 505-529)

After the gaussian reduction, `handle_phase_gadget` walks `gadget_right`
in reversed index order (lines 505-517): each right-target `w` is wired
plainly to its unique left partner `v` and given `v`'s qubit; if that
qubit is not yet among `targets` the node is migrated to the left side
(`HAD` emitted, popped from `gadget_right`, appended to `targets` and
`gadget_left`), else it stays and is parked at `leftrow + 1`.  Lines
509-529 then emit either the simple `ParityPhase` (no right-targets
left), the `"Gadget seems non-unitary"` exception, or the sandwiched
realization.  `qs = g.qubits()` is a live view, so after
`g.set_qubit(w, qs[v])` the read `qs[w]` yields `v`'s qubit.
-/

def Graph.setQubit (g : Graph) (v : Nat) (q : Nat) : Graph :=
  { g with qubit := Function.update g.qubit v q }

/-- Python's `% 2` on a `Fraction`: the representative in `[0, 2)`. -/
def qmod2 (x : ℚ) : ℚ := x - 2 * ⌊x / 2⌋

/-- The migration loop of lines 505-517, processing the reversed
`gadget_right` and re-prepending kept nodes (so `kept` keeps the original
order); the accumulator is `(kept, gadget_left, targets, gates)`.  `none`
models the `StopIteration` of the bare `next` when a right-target has no
left partner. -/
def migrateRev (lr : ℚ) (left : List Nat) :
    Graph → List Nat → List Nat × List Nat × List Nat × List Gate →
    Option (Graph × List Nat × List Nat × List Nat × List Gate)
  | g, [], (kept, gl, targets, gates) => some (g, kept, gl, targets, gates)
  | g, w :: ws, (kept, gl, targets, gates) =>
    match left.find? (fun v => g.connected w v) with
    | none => none
    | some v =>
      let g1 := g.setEdgeType v w ETy.S
      let g2 := g1.setQubit w (g1.qubit v)
      if g2.qubit w ∉ targets then
        migrateRev lr left g2 ws
          (kept, gl ++ [v], targets ++ [g2.qubit w], gates ++ [Gate.HAD (g2.qubit w)])
      else
        migrateRev lr left (g2.setRow w (lr + 1)) ws (w :: kept, gl, targets, gates)

/-- Lines 509-529: empty `gadget_right` gives the simple `ParityPhase`;
otherwise an odd right-count or a singleton `gadget_left` raises
`"Gadget seems non-unitary"`, else the sandwiched realization is emitted
(with the carried phase flipped mod 2 when the right-count is 2 mod 4). -/
def gadgetFinalize (g : Graph) (phase : ℚ) (gadget_right gadget_left targets : List Nat)
    (gates : List Gate) : Except Unit (List Gate) :=
  if gadget_right = [] then
    .ok (gates ++ [Gate.ParityPhase phase targets])
  else if gadget_right.length % 2 ≠ 0 ∨ gadget_left.length = 1 then
    .error ()
  else
    let rtargets := gadget_right.map g.qubit
    let gates1 := gates
      ++ rtargets.flatMap (fun t => [Gate.HAD t, Gate.ZPhase t (-(1/2)), Gate.HAD t])
    let phase1 := if gadget_right.length % 4 ≠ 0 then qmod2 (-phase) else phase
    .ok ((gates1 ++ [Gate.ParityPhase phase1 targets])
      ++ rtargets.flatMap (fun t => [Gate.HAD t, Gate.ZPhase t (1/2)]))

theorem migrate_inv (lr : ℚ) (left : List Nat) : ∀ (ws : List Nat) (g : Graph)
    (kept gl targets : List Nat) (gates : List Gate)
    (res : Graph × List Nat × List Nat × List Nat × List Gate),
    migrateRev lr left g ws (kept, gl, targets, gates) = some res →
    targets.length = gl.length →
    (kept ≠ [] → targets ≠ []) →
    res.2.2.2.1.length = res.2.2.1.length ∧ (res.2.1 ≠ [] → res.2.2.2.1 ≠ []) := by
  intro ws
  induction ws with
  | nil =>
    intro g kept gl targets gates res hm hlen hk
    simp only [migrateRev, Option.some.injEq] at hm
    subst hm
    exact ⟨hlen, hk⟩
  | cons w ws ih =>
    intro g kept gl targets gates res hm hlen hk
    cases hfind : left.find? (fun v => g.connected w v) with
    | none =>
      simp only [migrateRev, hfind] at hm
      exact Option.noConfusion hm
    | some v =>
      simp only [migrateRev, hfind] at hm
      split at hm
      · exact ih _ _ _ _ _ _ hm (by simp [hlen]) (fun _ => by simp)
      · next hin =>
        rw [not_not] at hin
        exact ih _ _ _ _ _ _ hm hlen (fun _ => List.ne_nil_of_mem hin)

theorem gadgetFinalize_ok_iff (g : Graph) (phase : ℚ) (kept gl targets : List Nat)
    (gates : List Gate) (hne : kept ≠ []) (hlen : targets.length = gl.length)
    (hts : targets ≠ []) :
    ((∃ gs, gadgetFinalize g phase kept gl targets gates = Except.ok gs)
      ↔ (kept.length % 2 = 0 ∧ 1 < gl.length))
    ∧ ((kept.length % 2 ≠ 0 ∨ gl.length = 1) →
        gadgetFinalize g phase kept gl targets gates = Except.error ()) := by
  have h1 : gl.length ≠ 0 := by
    intro h0
    exact hts (List.eq_nil_of_length_eq_zero (by rw [hlen, h0]))
  simp only [gadgetFinalize]
  rw [if_neg hne]
  by_cases hc : kept.length % 2 ≠ 0 ∨ gl.length = 1
  · rw [if_pos hc]
    refine ⟨⟨?_, ?_⟩, fun _ => rfl⟩
    · rintro ⟨gs, hgs⟩
      cases hgs
    · rintro ⟨he, hgt⟩
      exfalso
      rcases hc with h | h
      · exact h he
      · omega
  · rw [if_neg hc]
    push_neg at hc
    obtain ⟨he, hne1⟩ := hc
    refine ⟨⟨fun _ => ⟨he, by omega⟩, fun _ => ⟨_, rfl⟩⟩, ?_⟩
    rintro (h | h)
    · exact absurd he h
    · exact absurd h hne1

/-- **C5**: starting the migration loop with `targets = [qs[v] for v in
gadget_left]`, whenever right-side gadget targets remain (`kept ≠ []`)
the finalization emits the sandwiched realization exactly when the
remaining right-target count is even and the left-target count exceeds
one, and raises the `"Gadget seems non-unitary"` error whenever the count
is odd or the left-target count is one. -/
theorem gadget_unitarity_spec (g0 : Graph) (lr : ℚ) (left : List Nat) (phase : ℚ)
    (gr0 gl0 : List Nat) (gates0 : List Gate) :
    ∀ (g' : Graph) (kept gl' targets' : List Nat) (gates' : List Gate),
    migrateRev lr left g0 gr0.reverse ([], gl0, gl0.map g0.qubit, gates0)
      = some (g', kept, gl', targets', gates') →
    kept ≠ [] →
    ((∃ gs, gadgetFinalize g' phase kept gl' targets' gates' = Except.ok gs)
      ↔ (kept.length % 2 = 0 ∧ 1 < gl'.length))
    ∧ ((kept.length % 2 ≠ 0 ∨ gl'.length = 1) →
        gadgetFinalize g' phase kept gl' targets' gates' = Except.error ()) := by
  intro g' kept gl' targets' gates' hm hne
  obtain ⟨hlen, hts⟩ := migrate_inv lr left gr0.reverse g0 [] gl0 (gl0.map g0.qubit)
    gates0 (g', kept, gl', targets', gates') hm (by simp) (fun h => absurd rfl h)
  exact gadgetFinalize_ok_iff g' phase kept gl' targets' gates' hne hlen (hts hne)

/-- A post-reduction diagram for the migration loop: left vertices `0, 1`
at row `1`, right gadget-targets `4, 5` wired plainly to them, qubits the
vertex ids. -/
def gadgetCutGraph : Graph where
  edges := [(4, 0, ETy.S), (5, 1, ETy.S)]
  qubit := fun n => n
  row := fun _ => 1
  ty := fun _ => VTy.Z
  phase := fun _ => 0

/-- The graph after the migration loop keeps both right-targets of
`gadgetCutGraph` (their qubits already lie in `targets`). -/
def migratedGraph : Graph :=
  (((((gadgetCutGraph.setEdgeType 1 5 ETy.S).setQubit 5 1).setRow 5
    (1 + 1)).setEdgeType 0 4 ETy.S).setQubit 4 0).setRow 4 (1 + 1)

/-- Witness for **C5** on `gadgetCutGraph`: both right-targets are kept,
their count `2` is even and the left-target count `2` exceeds one, so the
sandwiched emission succeeds. -/
theorem gadget_unitarity_spec_witness :
    ((∃ gs, gadgetFinalize migratedGraph (1/4) [4, 5] [0, 1] [0, 1] [] = Except.ok gs)
      ↔ (([4, 5] : List Nat).length % 2 = 0 ∧ 1 < ([0, 1] : List Nat).length))
    ∧ ((([4, 5] : List Nat).length % 2 ≠ 0 ∨ ([0, 1] : List Nat).length = 1) →
        gadgetFinalize migratedGraph (1/4) [4, 5] [0, 1] [0, 1] [] = Except.error ()) :=
  gadget_unitarity_spec gadgetCutGraph 1 [0, 1] (1/4) [4, 5] [0, 1] []
    migratedGraph [4, 5] [0, 1] [0, 1] [] (by rfl) (by decide)


/-!
## The ancilla fallback (extract.py lines 251-259)

When the stalled main loop's `handle_phase_gadget` call raises
`ValueError`, the handler re-raises it unless `allow_ancillae`; in the
permissive case the very next statement is a bare `raise Exception`
(line 256), so the `find_ancilla_qubits` call and the
`c.gates.extend(gates); continue` that follow it are unreachable.
-/

/-- Outcomes of the `try/except ValueError` of lines 251-259.  `resolver`
is `some gates` when `handle_phase_gadget` returns, `none` when it raises
`ValueError`. -/
inductive FallbackOutcome
  | resolved (gates : List Gate)
  | valueErrorReraised
  | exceptionRaised
  | ancillaUsed (gates : List Gate)
deriving DecidableEq

/-- Lines 251-259 as written: the permissive branch executes
`raise Exception` before the allocator call, so `ancillaUsed` is never
produced. -/
def gadgetFallback (allow_ancillae : Bool) (resolver : Option (List Gate)) :
    FallbackOutcome :=
  match resolver with
  | some gates => .resolved gates
  | none =>
    if !allow_ancillae then .valueErrorReraised
    else .exceptionRaised

/-- **C1**: under the permissive policy a resolver failure hits the bare
`raise Exception` of line 256, and no execution of the handler reaches the
Ancilla Allocator; the strict policy re-raises the `ValueError`. -/
theorem ancilla_fallback_spec :
    gadgetFallback true none = FallbackOutcome.exceptionRaised
    ∧ (∀ (a : Bool) (r : Option (List Gate)) (gs : List Gate),
        gadgetFallback a r ≠ FallbackOutcome.ancillaUsed gs)
    ∧ gadgetFallback false none = FallbackOutcome.valueErrorReraised := by
  refine ⟨rfl, ?_, rfl⟩
  intro a r gs h
  cases r with
  | some g2 => simp [gadgetFallback] at h
  | none =>
    cases a with
    | false => simp [gadgetFallback] at h
    | true => simp [gadgetFallback] at h

/-- Witness for **C1**: even a successful resolver run is not the
allocator outcome. -/
theorem ancilla_fallback_spec_witness :
    gadgetFallback true (some [Gate.HAD 0]) ≠ FallbackOutcome.ancillaUsed [] :=
  ancilla_fallback_spec.2.1 true (some [Gate.HAD 0]) []

/-!
## The gate-count cutoff (extract.py lines 232 and 321-322)

`streaming_extract` consults `stopcount` at exactly two places: after the
direct phase-gadget extraction loop (line 232) and at the end of a main
loop iteration, after `leftrow += 1` (lines 321-322).  The other
gate-emitting steps (gate absorption, entangling gates, the CNOTs of a
greedy reduction, the gates returned by the resolvers) run with no check.
The control skeleton below abstracts one main-loop pass into segments,
each contributing its number of emitted gates; `gadgetDirect` segments
are the ones followed by the line-232 check.
-/

/-- A gate-emitting segment of one main-loop iteration: `gadgetDirect k`
emits `k` gates and is followed by the line-232 check; `other k` emits
`k` gates with no check. -/
inductive Seg
  | gadgetDirect (k : Nat)
  | other (k : Nat)
deriving DecidableEq

def Seg.count : Seg → Nat
  | .gadgetDirect k => k
  | .other k => k

def iterCount (l : List Seg) : Nat := (l.map Seg.count).sum

def totalCount (ls : List (List Seg)) : Nat := (ls.map iterCount).sum

/-- Run the segments of one iteration: the gate count accumulates, and
only a `gadgetDirect` segment performs the
`stopcount != -1 and len(c.gates) > stopcount` return. -/
def runSegs (stopcount : Int) : List Seg → Nat → Nat × Bool
  | [], count => (count, false)
  | Seg.gadgetDirect k :: rest, count =>
    if stopcount ≠ -1 ∧ ((count + k : Nat) : Int) > stopcount then (count + k, true)
    else runSegs stopcount rest (count + k)
  | Seg.other k :: rest, count => runSegs stopcount rest (count + k)

/-- The main loop: per iteration run the segments, then the line 321-322
check after `leftrow += 1`.  The `Bool` is `true` when the loop returned
the partial circuit at a checkpoint. -/
def runLoop (stopcount : Int) : List (List Seg) → Nat → Nat × Bool
  | [], count => (count, false)
  | iter :: iters, count =>
    match runSegs stopcount iter count with
    | (c2, true) => (c2, true)
    | (c2, false) =>
      if stopcount ≠ -1 ∧ (c2 : Int) > stopcount then (c2, true)
      else runLoop stopcount iters c2

theorem runSegs_neg1 : ∀ (segs : List Seg) (count : Nat),
    runSegs (-1) segs count = (count + iterCount segs, false) := by
  intro segs
  induction segs with
  | nil => intro count; simp [runSegs, iterCount]
  | cons s rest ih =>
    intro count
    cases s with
    | gadgetDirect k =>
      simp only [runSegs]
      rw [if_neg (by simp)]
      rw [ih]
      simp [iterCount, Seg.count, Nat.add_assoc]
    | other k =>
      simp only [runSegs]
      rw [ih]
      simp [iterCount, Seg.count, Nat.add_assoc]

theorem runLoop_neg1 : ∀ (iters : List (List Seg)) (count : Nat),
    runLoop (-1) iters count = (count + totalCount iters, false) := by
  intro iters
  induction iters with
  | nil => intro count; simp [runLoop, totalCount]
  | cons iter iters ih =>
    intro count
    simp only [runLoop, runSegs_neg1]
    rw [if_neg (by simp)]
    rw [ih]
    simp [totalCount, Nat.add_assoc]

theorem runSegs_true (stopcount : Int) : ∀ (segs : List Seg) (count c : Nat),
    runSegs stopcount segs count = (c, true) →
    stopcount ≠ -1 ∧ (c : Int) > stopcount := by
  intro segs
  induction segs with
  | nil =>
    intro count c h
    simp only [runSegs, Prod.mk.injEq] at h
    exact absurd h.2 (by simp)
  | cons s rest ih =>
    intro count c h
    cases s with
    | gadgetDirect k =>
      simp only [runSegs] at h
      by_cases hc : stopcount ≠ -1 ∧ ((count + k : Nat) : Int) > stopcount
      · rw [if_pos hc] at h
        obtain ⟨h1, -⟩ := Prod.mk.injEq .. ▸ h
        exact h1 ▸ hc
      · rw [if_neg hc] at h
        exact ih _ _ h
    | other k =>
      simp only [runSegs] at h
      exact ih _ _ h

theorem runLoop_true (stopcount : Int) : ∀ (iters : List (List Seg)) (count c : Nat),
    runLoop stopcount iters count = (c, true) →
    stopcount ≠ -1 ∧ (c : Int) > stopcount := by
  intro iters
  induction iters with
  | nil =>
    intro count c h
    simp only [runLoop, Prod.mk.injEq] at h
    exact absurd h.2 (by simp)
  | cons iter iters ih =>
    intro count c h
    cases hseg : runSegs stopcount iter count with
    | mk c2 b =>
      cases b with
      | true =>
        simp only [runLoop, hseg] at h
        obtain ⟨h1, -⟩ := Prod.mk.injEq .. ▸ h
        exact h1 ▸ runSegs_true stopcount iter count c2 hseg
      | false =>
        simp only [runLoop, hseg] at h
        by_cases hc : stopcount ≠ -1 ∧ (c2 : Int) > stopcount
        · rw [if_pos hc] at h
          obtain ⟨h1, -⟩ := Prod.mk.injEq .. ▸ h
          exact h1 ▸ hc
        · rw [if_neg hc] at h
          exact ih _ _ h

/-- Counterexample to **C8** as stated: with cutoff `1`, an iteration
whose gate emissions come from unchecked steps (`other`) crosses the
cutoff after its first step (count `2 > 1`), yet the loop keeps emitting
and returns a circuit of `5` gates at the end-of-iteration checkpoint —
not immediately after the emitting step that crossed the cutoff. -/
theorem stopcount_counterexample :
    ((0 + 2 : Nat) : Int) > 1
    ∧ runLoop 1 [[Seg.other 2, Seg.other 3]] 0 = (5, true)
    ∧ (5 : Nat) ≠ 0 + 2 := by
  refine ⟨by decide, by decide, by decide⟩

/-- **C8**, amended: with the cutoff disabled (`stopcount = -1`) the loop
never early-returns; every early return happens at one of the two
checkpoints and only with the gate count strictly above the cutoff (a
normal return of the partial circuit, not an error); the line-232
checkpoint after a direct gadget extraction and the line 321-322
end-of-iteration checkpoint each return immediately when the count
exceeds the cutoff. -/
theorem stopcount_spec (stopcount : Int) :
    (∀ (iters : List (List Seg)) (count : Nat),
      runLoop (-1) iters count = (count + totalCount iters, false))
    ∧ (∀ (iters : List (List Seg)) (count c : Nat),
      runLoop stopcount iters count = (c, true) →
      stopcount ≠ -1 ∧ (c : Int) > stopcount)
    ∧ (∀ (k : Nat) (rest : List Seg) (count : Nat),
      stopcount ≠ -1 → ((count + k : Nat) : Int) > stopcount →
      runSegs stopcount (Seg.gadgetDirect k :: rest) count = (count + k, true))
    ∧ (∀ (iter : List Seg) (iters : List (List Seg)) (count c2 : Nat),
      runSegs stopcount iter count = (c2, false) →
      stopcount ≠ -1 → (c2 : Int) > stopcount →
      runLoop stopcount (iter :: iters) count = (c2, true)) := by
  refine ⟨runLoop_neg1, runLoop_true stopcount, ?_, ?_⟩
  · intro k rest count h1 h2
    simp only [runSegs]
    rw [if_pos ⟨h1, h2⟩]
  · intro iter iters count c2 hseg h1 h2
    simp only [runLoop, hseg]
    rw [if_pos ⟨h1, h2⟩]

/-- Witness for **C8** at cutoff `1`: a direct gadget extraction emitting
`2` gates returns immediately at the line-232 checkpoint, even with more
segments pending. -/
theorem stopcount_spec_witness :
    runSegs 1 [Seg.gadgetDirect 2, Seg.other 7] 0 = (0 + 2, true) :=
  (stopcount_spec 1).2.2.1 2 [Seg.other 7] 0 (by decide) (by decide)


end Pyzx
